import Mathlib

/-!
# Verification of the typed interaction-net calculus

A shallow embedding of the typed-agents repository (src/run.rs, src/main.rs):
the Tree/Term model, the reduction engine (`Net.freshen`, `Net.apply_rule`,
`Net.interact`, `Net.normal`, `Net.substitute_ref`, `Net.substitute`), the
program builder's rule synthesis (`add_decl_annotator_rule`,
`build_interaction_system`), the type-checking loop (`typecheck_net`), and
the completeness checker (`get_nth_instances`, `check_completeness`).

Rust `Vec` is embedded as `List` with `push` appending at the end and `pop`
removing the last element (`vecPop`).  `SlotMap`/`BTreeMap` are embedded as
association lists with unique keys; slotmap key allocation is modelled by a
`next` counter.  Rust panics (`unwrap` on a missing slot, `unreachable!`)
surface as `none` in an `Option`-valued result; loops that the source runs
without a bound take an explicit fuel parameter, with `none` meaning the
fuel ran out.
-/

namespace TypedAgents

/-- `AgentId` in run.rs: opaque stable key of an agent kind. -/
abbrev AgentId := Nat

/-- `VarId` in run.rs: opaque stable key of a wire endpoint. -/
abbrev VarId := Nat

/-- `Tree` in run.rs: an agent node with ordered aux subtrees, or a variable. -/
inductive Tree where
  | agent (id : AgentId) (aux : List Tree)
  | var (id : VarId)
deriving Repr, Inhabited

mutual
/-- Decidable equality for `Tree` (the nested `List` blocks deriving). -/
def Tree.decEq : (a b : Tree) → Decidable (a = b)
  | .agent i a, .agent j b =>
    match Nat.decEq i j with
    | isFalse h => isFalse (by simp [h])
    | isTrue h =>
      match Tree.decEqList a b with
      | isTrue h2 => isTrue (by rw [h, h2])
      | isFalse h2 => isFalse (by simp [h, h2])
  | .agent _ _, .var _ => isFalse (fun h => Tree.noConfusion h)
  | .var _, .agent _ _ => isFalse (fun h => Tree.noConfusion h)
  | .var i, .var j =>
    match Nat.decEq i j with
    | isTrue h => isTrue (by rw [h])
    | isFalse h => isFalse (by simp [h])

/-- Decidable equality for lists of trees. -/
def Tree.decEqList : (a b : List Tree) → Decidable (a = b)
  | [], [] => isTrue rfl
  | [], _ :: _ => isFalse (fun h => List.noConfusion h)
  | _ :: _, [] => isFalse (fun h => List.noConfusion h)
  | x :: xs, y :: ys =>
    match Tree.decEq x y with
    | isFalse h => isFalse (by simp [h])
    | isTrue h =>
      match Tree.decEqList xs ys with
      | isTrue h2 => isTrue (by rw [h, h2])
      | isFalse h2 => isFalse (by simp [h, h2])
end

instance : DecidableEq Tree := Tree.decEq

/-- `Tree::agent_id` in main.rs: `Some id` for an agent, `None` for a var. -/
def Tree.agent_id : Tree → Option AgentId
  | .agent id _ => some id
  | .var _ => none

mutual
/-- Number of occurrences of variable `v` in a tree. -/
def countVar (v : VarId) : Tree → Nat
  | .agent _ aux => countVarList v aux
  | .var id => if id = v then 1 else 0

/-- Number of occurrences of variable `v` in a list of trees. -/
def countVarList (v : VarId) : List Tree → Nat
  | [] => 0
  | t :: ts => countVar v t + countVarList v ts
end

mutual
/-- Apply a variable renaming to a tree; agent kinds and tree structure are
unchanged by construction. -/
def Tree.renameVars (ρ : VarId → VarId) : Tree → Tree
  | .agent id aux => .agent id (Tree.renameVarsList ρ aux)
  | .var id => .var (ρ id)

/-- `renameVars` mapped over a list of trees. -/
def Tree.renameVarsList (ρ : VarId → VarId) : List Tree → List Tree
  | [] => []
  | t :: ts => Tree.renameVars ρ t :: Tree.renameVarsList ρ ts
end

/-- Pop the LAST element of a list, mirroring `Vec::pop`. -/
def vecPop {α : Type} : List α → Option (α × List α)
  | [] => none
  | x :: xs =>
    match vecPop xs with
    | none => some (x, [])
    | some (y, ys) => some (y, x :: ys)

theorem vecPop_nil {α : Type} : vecPop ([] : List α) = none := rfl

theorem vecPop_append_singleton {α : Type} (l : List α) (x : α) :
    vecPop (l ++ [x]) = some (x, l) := by
  induction l with
  | nil => rfl
  | cons a as ih => simp [vecPop, ih]

theorem vecPop_eq_none_iff {α : Type} (l : List α) : vecPop l = none ↔ l = [] := by
  cases l with
  | nil => simp [vecPop]
  | cons a as =>
    simp only [vecPop]
    cases h : vecPop as with
    | none => simp
    | some p => simp

theorem vecPop_eq_some_iff {α : Type} (l r : List α) (x : α) :
    vecPop l = some (x, r) ↔ l = r ++ [x] := by
  constructor
  · intro h
    induction l generalizing r with
    | nil => simp [vecPop] at h
    | cons a as ih =>
      simp only [vecPop] at h
      cases has : vecPop as with
      | none =>
        rw [has] at h
        have : as = [] := (vecPop_eq_none_iff as).mp has
        subst this
        simp at h
        simp [h.1, h.2.symm]
      | some p =>
        rw [has] at h
        simp at h
        obtain ⟨h1, h2⟩ := h
        have hAs : as = p.2 ++ [x] := ih p.2 (by rw [has, ← h1])
        subst hAs
        simp [← h2]
  · intro h
    subst h
    exact vecPop_append_singleton r x

/-- The variable store: `SlotMap<VarId, Option<Tree>>` in run.rs, with a
counter modelling slotmap key allocation. -/
structure VarStore where
  next : Nat
  slots : List (VarId × Option Tree)
deriving Repr, DecidableEq, Inhabited

/-- `SlotMap::insert(None)`, as used by `Net::new_var`. -/
def VarStore.newVar (s : VarStore) : VarId × VarStore :=
  (s.next, ⟨s.next + 1, s.slots ++ [(s.next, none)]⟩)

/-- Slot lookup: `none` when the key is absent from the map. -/
def VarStore.getSlot (s : VarStore) (id : VarId) : Option (Option Tree) :=
  s.slots.lookup id

/-- Overwrite the content of an existing slot. -/
def VarStore.setSlot (s : VarStore) (id : VarId) (v : Option Tree) : VarStore :=
  ⟨s.next, s.slots.map fun kv => if kv.1 = id then (kv.1, v) else kv⟩

/-- `SlotMap::remove`. -/
def VarStore.removeSlot (s : VarStore) (id : VarId) : VarStore :=
  ⟨s.next, s.slots.filter fun kv => kv.1 ≠ id⟩

/-- `InteractionRule` in run.rs. -/
structure InteractionRule where
  left_ports : List Tree
  right_ports : List Tree
deriving Repr, DecidableEq, Inhabited

/-- `InteractionSystem` in run.rs: `BTreeMap<AgentId, BTreeMap<AgentId,
InteractionRule>>`, flattened to an association list on the ordered key
pair (the nested map is only ever accessed by both keys). -/
structure InteractionSystem where
  rules : List ((AgentId × AgentId) × InteractionRule)
deriving Repr, DecidableEq, Inhabited

/-- `rules.get(&a).and_then(|x| x.get(&b))`. -/
def InteractionSystem.getRule (s : InteractionSystem) (a b : AgentId) :
    Option InteractionRule :=
  s.rules.lookup (a, b)

/-- `Net` in run.rs: pending interactions, variable store, stuck set, and the
shared rule table. -/
structure Net where
  interactions : List (Tree × Tree)
  vars : VarStore
  stuck : List (Tree × Tree)
  system : InteractionSystem
deriving Repr, DecidableEq, Inhabited

namespace Net

/-- `Net::new_var`. -/
def new_var (n : Net) : VarId × Net :=
  let (v, vars') := n.vars.newVar
  (v, { n with vars := vars' })

/-- `Net::link`: push a pending interaction. -/
def link (n : Net) (a b : Tree) : Net :=
  { n with interactions := n.interactions ++ [(a, b)] }

/-- The freshening scope: `BTreeMap<VarId, VarId>` in `Net::freshen`. -/
abbrev Scope := List (VarId × VarId)

/-- `BTreeMap::remove`: return the mapped value (if any) and the map without
that key.  Keys are unique, so removing the first match suffices. -/
def scopeRemove (scope : Scope) (id : VarId) : Option VarId × Scope :=
  match scope with
  | [] => (none, [])
  | (k, v) :: rest =>
    if k = id then (some v, rest)
    else
      let (r, rest') := scopeRemove rest id
      (r, (k, v) :: rest')

mutual
/-- `Net::freshen` in run.rs: copy the template tree, renaming variables
through `scope`; note the source calls `scope.remove(id)` on a hit, so a
mapping is consumed when it is used. -/
def freshen (vars : VarStore) (scope : Scope) : Tree → Tree × VarStore × Scope
  | .agent id aux =>
    let (aux', vars', scope') := freshenList vars scope aux
    (.agent id aux', vars', scope')
  | .var id =>
    match scopeRemove scope id with
    | (some e, scope') => (.var e, vars, scope')
    | (none, scope') =>
      let (new_id, vars') := vars.newVar
      (.var new_id, vars', (id, new_id) :: scope')

/-- Freshening of the aux list, threading the store and the scope left to
right, mirroring the `map` in `Net::freshen`'s `Agent` arm. -/
def freshenList (vars : VarStore) (scope : Scope) :
    List Tree → List Tree × VarStore × Scope
  | [] => ([], vars, scope)
  | t :: ts =>
    let (t', vars', scope') := freshen vars scope t
    let (ts', vars'', scope'') := freshenList vars' scope' ts
    (t' :: ts', vars'', scope'')
end

/-- The loop body of `Net::apply_rule`: freshen one template port and push it
with its actual tree. -/
def applyStep (acc : Net × Scope) (p : Tree × Tree) : Net × Scope :=
  let (i, vars', scope') := freshen acc.1.vars acc.2 p.1
  (Net.link { acc.1 with vars := vars' } i p.2, scope')

/-- `Net::apply_rule` in run.rs: pair each template port with its actual tree,
left side first then right side, freshen the template under one shared scope,
and push each (freshened template, actual) as a pending interaction. -/
def apply_rule (n : Net) (rule : InteractionRule) (left right : List Tree) : Net :=
  ((rule.left_ports.zip left ++ rule.right_ports.zip right).foldl applyStep (n, [])).1

/-- The `Agent/Var` and `Var/Var` arm of `Net::interact`: `none` models the
`unwrap` panic when the variable has no slot in the store at all. -/
def interactVar (n : Net) (id : VarId) (a : Tree) : Option Net :=
  match n.vars.getSlot id with
  | none => none
  | some (some b) =>
    some (Net.link { n with vars := n.vars.removeSlot id } a b)
  | some none =>
    some { n with vars := n.vars.setSlot id (some a) }

/-- `Net::interact` in run.rs.  The Rust or-pattern `(a, Var{id}) | (Var{id}, a)`
tries the first alternative first, so for Var/Var the second component's
variable is the one resolved. -/
def interact (n : Net) (a b : Tree) : Option Net :=
  match a, b with
  | .agent id1 aux1, .agent id2 aux2 =>
    match n.system.getRule id1 id2 with
    | some r => some (n.apply_rule r aux1 aux2)
    | none =>
      match n.system.getRule id2 id1 with
      | some r => some (n.apply_rule r aux2 aux1)
      | none =>
        some { n with stuck := n.stuck ++ [(.agent id1 aux1, .agent id2 aux2)] }
  | a, .var id => interactVar n id a
  | .var id, a => interactVar n id a

/-- `Net::normal` in run.rs: pop pending interactions until none remain.
`fuel` bounds the number of iterations; `none` means fuel ran out or a panic
occurred inside `interact`. -/
def normal (fuel : Nat) (n : Net) : Option Net :=
  match fuel with
  | 0 => if n.interactions = [] then some n else none
  | fuel + 1 =>
    match vecPop n.interactions with
    | none => some n
    | some ((a, b), rest) =>
      match interact { n with interactions := rest } a b with
      | none => none
      | some n' => normal fuel n'

mutual
/-- `Net::substitute_ref` in run.rs: resolve bound variables transitively,
never touching the store (`&self` receiver).  `fuel` bounds the number of
binding-follow steps; `none` means the chase did not finish in `fuel` steps. -/
def substitute_ref (vars : VarStore) : Nat → Tree → Option Tree
  | fuel, .agent id aux => (substituteRefList vars fuel aux).map (Tree.agent id)
  | fuel, .var id =>
    match vars.getSlot id with
    | some (some b) =>
      match fuel with
      | 0 => none
      | fuel + 1 => substitute_ref vars fuel b
    | _ => some (.var id)
  termination_by fuel t => (fuel, sizeOf t)

/-- `substitute_ref` mapped over an aux list. -/
def substituteRefList (vars : VarStore) : Nat → List Tree → Option (List Tree)
  | _, [] => some []
  | fuel, t :: ts =>
    match substitute_ref vars fuel t with
    | none => none
    | some t' =>
      match substituteRefList vars fuel ts with
      | none => none
      | some ts' => some (t' :: ts')
  termination_by fuel ts => (fuel, sizeOf ts)
end

mutual
/-- `Net::substitute` in run.rs: like `substitute_ref` but destructive — a
bound slot is taken and removed before its tree is resolved; `none` models
both fuel exhaustion and the `unwrap` panic on a variable with no slot. -/
def substitute (vars : VarStore) : Nat → Tree → Option (Tree × VarStore)
  | fuel, .agent id aux =>
    (substituteList vars fuel aux).map fun p => (Tree.agent id p.1, p.2)
  | fuel, .var id =>
    match vars.getSlot id with
    | none => none
    | some none => some (.var id, vars)
    | some (some b) =>
      match fuel with
      | 0 => none
      | fuel + 1 => substitute (vars.removeSlot id) fuel b
  termination_by fuel t => (fuel, sizeOf t)

/-- `substitute` mapped over an aux list, threading the store. -/
def substituteList (vars : VarStore) : Nat → List Tree → Option (List Tree × VarStore)
  | _, [] => some ([], vars)
  | fuel, t :: ts =>
    match substitute vars fuel t with
    | none => none
    | some (t', vars') =>
      match substituteList vars' fuel ts with
      | none => none
      | some (ts', vars'') => some (t' :: ts', vars'')
  termination_by fuel ts => (fuel, sizeOf ts)
end

end Net

/-- `UntypedMatch` in main.rs. -/
structure UntypedMatch where
  id : AgentId
  aux : List Tree
deriving Repr, DecidableEq, Inhabited

/-- `TypedMatch` in main.rs: each port carries a (pre-state, post-state,
declared-type) triple, in the surface order `pre -> post : type`. -/
structure TypedMatch where
  id : AgentId
  aux : List (Tree × Tree × Tree)
deriving Repr, DecidableEq, Inhabited

/-- `Definition` in main.rs. -/
structure Definition where
  left : UntypedMatch
  right : UntypedMatch
  net : Net
deriving Repr, DecidableEq, Inhabited

/-- `Declaration` in main.rs. -/
structure Declaration where
  agent : TypedMatch
  intermediate : List Tree
  type : UntypedMatch
  net : Net
deriving Repr, DecidableEq, Inhabited

/-- The finished `Program` (the fields the verified operations read). -/
structure Program where
  system : InteractionSystem
  agent_scope : List (String × AgentId)
  declarations : List Declaration
  definitions : List Definition
  annotator_id : AgentId
  ann_id : AgentId
deriving Repr, Inhabited

/-- `Program::lookup_agent` in main.rs: first scope entry mapping to `id`. -/
def lookup_agent (scope : List (String × AgentId)) (id : AgentId) : Option String :=
  (scope.find? fun kv => kv.2 == id).map Prod.fst

/-- `ProgramBuilder::add_decl_annotator_rule` in main.rs: the one Definition
synthesized for a Declaration.  Left: `Annotator(Ann(Ctor(post_i...), Type))`;
right: `Ctor(Ann(pre_i, type_i)...)`. -/
def add_decl_annotator_rule (annotator_id ann_id : AgentId) (decl : Declaration) :
    Definition where
  left :=
    { id := annotator_id,
      aux := [Tree.agent ann_id
        [Tree.agent decl.agent.id (decl.agent.aux.map fun x => x.2.1),
         Tree.agent decl.type.id decl.type.aux]] }
  right :=
    { id := decl.agent.id,
      aux := decl.agent.aux.map fun x => Tree.agent ann_id [x.1, x.2.2] }
  net := decl.net

/-- The `Statement::Decl` arm of `load_statement` after tree loading: the
declaration is recorded and exactly one synthesized definition is appended. -/
def process_decl (annotator_id ann_id : AgentId)
    (defs : List Definition) (decls : List Declaration) (decl : Declaration) :
    List Definition × List Declaration :=
  (defs ++ [add_decl_annotator_rule annotator_id ann_id decl], decls ++ [decl])

/-- One iteration of `ProgramBuilder::build_interaction_system`: insert the
rule keyed by the ordered pair (left kind, right kind); `none` models the
`assert!` panics (ordered duplicate key, or a non-empty leftover net). -/
def buildStep (isys : InteractionSystem) (d : Definition) : Option InteractionSystem :=
  if (isys.getRule d.left.id d.right.id).isSome then none
  else if d.net.interactions ≠ [] then none
  else some ⟨isys.rules ++ [((d.left.id, d.right.id), ⟨d.left.aux, d.right.aux⟩)]⟩

/-- `ProgramBuilder::build_interaction_system` in main.rs. -/
def build_interaction_system (defs : List Definition) : Option InteractionSystem :=
  defs.foldlM buildStep (⟨[]⟩ : InteractionSystem)

/-- The largest `intermediate` length over a list of declarations. -/
def maxIntermediate (decls : List Declaration) : Nat :=
  (decls.map fun d => d.intermediate.length).foldr max 0

theorem maxIntermediate_cons (a : Declaration) (as : List Declaration) :
    maxIntermediate (a :: as) = max a.intermediate.length (maxIntermediate as) := rfl

theorem length_le_maxIntermediate :
    ∀ {decls : List Declaration} {i : Declaration},
      i ∈ decls → i.intermediate.length ≤ maxIntermediate decls := by
  intro decls
  induction decls with
  | nil => intro i hi; cases hi
  | cons a as ih =>
    intro i hi
    rcases List.mem_cons.mp hi with h | h
    · subst h; rw [maxIntermediate_cons]; exact Nat.le_max_left _ _
    · exact le_trans (ih h) (by rw [maxIntermediate_cons]; exact Nat.le_max_right _ _)

/-- `Program::get_nth_instances` in main.rs: enumerate the constructors of
`t` seen as a type at hierarchy depth `d`, recursing one level deeper through
declarations whose constructor is `t` itself. -/
def get_nth_instances (decls : List Declaration) (t : AgentId) (d : Nat) :
    List AgentId :=
  decls.attach.flatMap fun x =>
    if _hlen : x.1.intermediate.length = d then
      (if x.1.type.id = t then [x.1.agent.id] else []) ++
      (if x.1.agent.id = t then get_nth_instances decls x.1.type.id (d + 1) else [])
    else []
termination_by maxIntermediate decls + 1 - d
decreasing_by
  have := length_le_maxIntermediate x.2
  omega

mutual
/-- `get_nth_instances` with an explicit recursion-depth budget: each nested
recursive invocation consumes one unit of `fuel`; `none` means the budget was
exhausted. -/
def get_nth_instances_fuel (decls : List Declaration) :
    Nat → AgentId → Nat → Option (List AgentId)
  | 0, _, _ => none
  | fuel + 1, t, d => gni_go decls fuel t d decls
  termination_by fuel _ _ => (fuel, 1, 0)

/-- The declaration loop inside one `get_nth_instances_fuel` invocation. -/
def gni_go (decls : List Declaration) (fuel : Nat) (t : AgentId) (d : Nat) :
    List Declaration → Option (List AgentId)
  | [] => some []
  | i :: rest =>
    let head : Option (List AgentId) :=
      if i.intermediate.length = d then
        let v1 := if i.type.id = t then [i.agent.id] else []
        match (if i.agent.id = t
               then get_nth_instances_fuel decls fuel i.type.id (d + 1)
               else some []) with
        | none => none
        | some v2 => some (v1 ++ v2)
      else some []
    match head with
    | none => none
    | some h =>
      match gni_go decls fuel t d rest with
      | none => none
      | some tl => some (h ++ tl)
  termination_by l => (fuel + 1, 0, l.length)
end

/-- The `any` test inside `Program::require_defined`: some Definition has
kinds (a, b) or (b, a). -/
def rule_defined (defs : List Definition) (a b : AgentId) : Bool :=
  defs.any fun x => (x.left.id == a && x.right.id == b) || (x.left.id == b && x.right.id == a)

/-- `Program::require_defined` in main.rs: `none` models the `unwrap` panic
when an offending kind has no name in scope. -/
def require_defined (p : Program) (a b : AgentId) : Option (Except String Unit) :=
  if rule_defined p.definitions a b then
    some (.ok ())
  else
    match lookup_agent p.agent_scope a, lookup_agent p.agent_scope b with
    | some na, some nb => some (.error s!"Undefined interaction between {na} and {nb}")
    | _, _ => none

/-- The pair stream of `check_completeness`: for each Definition, the
Cartesian product of the depth-0 instances of its two sides, in loop order. -/
def completeness_pairs (p : Program) : List (AgentId × AgentId) :=
  p.definitions.flatMap fun dd =>
    (get_nth_instances p.declarations dd.left.id 0).flatMap fun i =>
      (get_nth_instances p.declarations dd.right.id 0).map fun j => (i, j)

/-- The `?`-propagating loop of `check_completeness`: stop at the first
failing `require_defined`. -/
def require_all (p : Program) : List (AgentId × AgentId) → Option (Except String Unit)
  | [] => some (.ok ())
  | (a, b) :: rest =>
    match require_defined p a b with
    | none => none
    | some (.error e) => some (.error e)
    | some (.ok _) => require_all p rest

/-- `Program::check_completeness` in main.rs. -/
def check_completeness (p : Program) : Option (Except String Unit) :=
  require_all p (completeness_pairs p)

/-- The annotation pass of `typecheck_net` (main.rs lines 264-280): replace
every asserted pair (a, b) with the two pending interactions
(a, Annotator(v)) and (b, Annotator(v)) for one fresh v per pair. -/
def annotate_interactions (annotator_id : AgentId) (net : Net) : Net :=
  net.interactions.foldl
    (fun n ab =>
      let (v, n') := Net.new_var n
      { n' with interactions := n'.interactions ++
          [(ab.1, Tree.agent annotator_id [Tree.var v]),
           (ab.2, Tree.agent annotator_id [Tree.var v])] })
    { net with interactions := [] }

/-- The `is_stuck` branch of the `typecheck_net` loop (main.rs lines
291-309), applied to a popped stuck pair (a, b) with `net` already holding
the remaining stuck set.  `none` models the `unwrap`/`unreachable!` panics;
`Except.error` is the early `return Err`; `Except.ok` is the state the loop
continues with. -/
def tcStuckStep (p : Program) (net : Net) (gc : List (Option Tree)) (a b : Tree) :
    Option (Except String (Net × List (Option Tree))) :=
  match b.agent_id with
  | none => none
  | some bid =>
    let ab := if bid = p.ann_id then (b, a) else (a, b)
    match ab.1.agent_id with
    | none => none
    | some aid =>
      if aid = p.ann_id then
        match ab.1 with
        | .var _ => none
        | .agent _ aux =>
          match vecPop aux with
          | none => none
          | some (w, aux1) =>
            match vecPop aux1 with
            | none => none
            | some (payload, _) =>
              match Net.interact net payload ab.2 with
              | none => none
              | some net' => some (.ok (net', gc ++ [some w]))
      else
        match ab.2.agent_id with
        | none => none
        | some bid2 =>
          match lookup_agent p.agent_scope aid, lookup_agent p.agent_scope bid2 with
          | some ea, some eb =>
            some (.error
              ("When typechecking net\n:\tUndefined Interaction:\n\t\t" ++ ea ++ " ~ " ++ eb))
          | _, _ => none

/-- The main loop of `typecheck_net` (main.rs lines 285-314): drain pending
interactions first; with pending empty, pop one stuck pair and run
`tcStuckStep`.  Ends with the final net and garbage list when both queues
are empty.  `fuel` bounds the iteration count. -/
def tcLoop (p : Program) :
    Nat → Net → List (Option Tree) → Option (Except String (Net × List (Option Tree)))
  | 0, _, _ => none
  | fuel + 1, net, gc =>
    match vecPop net.interactions with
    | some ((a, b), rest) =>
      match Net.interact { net with interactions := rest } a b with
      | none => none
      | some net' => tcLoop p fuel net' gc
    | none =>
      match vecPop net.stuck with
      | none => some (.ok (net, gc))
      | some ((a, b), rest) =>
        match tcStuckStep p { net with stuck := rest } gc a b with
        | none => none
        | some (.error e) => some (.error e)
        | some (.ok (net', gc')) => tcLoop p fuel net' gc'

/-- The post-loop result of `typecheck_net` (main.rs lines 315-319). -/
def tcFinal (net : Net) : Except String Unit :=
  if net.stuck ≠ [] then .error "Had stuck interactions" else .ok ()

/-- `Program::typecheck_net` in main.rs. -/
def typecheck_net (p : Program) (fuel : Nat) (net : Net) :
    Option (Except String Unit) :=
  let net1 := { annotate_interactions p.annotator_id net with system := p.system }
  match tcLoop p fuel net1 [] with
  | none => none
  | some (.error e) => some (.error e)
  | some (.ok (net', _)) => some (tcFinal net')

/-- An empty workspace net, used by the concrete sample programs. -/
def emptyNet : Net := ⟨[], ⟨0, []⟩, [], ⟨[]⟩⟩

/-- Sample Definition with kinds (0, 1). -/
def defAB : Definition := ⟨⟨0, []⟩, ⟨1, []⟩, emptyNet⟩

/-- Sample Definition with kinds (1, 0). -/
def defBA : Definition := ⟨⟨1, []⟩, ⟨0, []⟩, emptyNet⟩

/-- Sample Declaration: constructor kind 3 with one typed port
`(pre = var 0, post = var 1, type = agent 9)` and parent type kind 4. -/
def sampleDecl : Declaration :=
  ⟨⟨3, [(Tree.var 0, Tree.var 1, Tree.agent 9 [])]⟩, [], ⟨4, []⟩, emptyNet⟩

/-- Sample program for the completeness checker: constructors Z (kind 0) and
S (kind 1) of type Nat (kind 2), a Nat ~ Nat Definition, and a Z ~ Z
Definition only, so the pair (Z, S) is the first missing pair. -/
def progC : Program :=
  { system := ⟨[]⟩,
    agent_scope := [("Z", 0), ("S", 1), ("Nat", 2)],
    declarations :=
      [⟨⟨0, []⟩, [], ⟨2, []⟩, emptyNet⟩,
       ⟨⟨1, [(Tree.var 0, Tree.var 0, Tree.agent 2 [])]⟩, [], ⟨2, []⟩, emptyNet⟩],
    definitions := [⟨⟨2, []⟩, ⟨2, []⟩, emptyNet⟩, ⟨⟨0, []⟩, ⟨0, []⟩, emptyNet⟩],
    annotator_id := 8,
    ann_id := 9 }

/-! ## Claim theorems -/

/-- C7: when both sides of `interact` are agents and no rule exists for the
kind pair in either order, exactly one pair is appended to the stuck set with
both trees structurally unchanged (not even swapped), the pending queue, the
variable store and the rest of the stuck set are untouched, and no error is
raised. -/
theorem interact_no_rule_stuck (n : Net) (id1 id2 : AgentId) (aux1 aux2 : List Tree)
    (h1 : n.system.getRule id1 id2 = none) (h2 : n.system.getRule id2 id1 = none) :
    Net.interact n (.agent id1 aux1) (.agent id2 aux2) =
      some { n with stuck := n.stuck ++ [(.agent id1 aux1, .agent id2 aux2)] } := by
  simp [Net.interact, h1, h2]

theorem interact_no_rule_stuck_witness :
    Net.interact ⟨[], ⟨0, []⟩, [], ⟨[]⟩⟩ (.agent 0 []) (.agent 1 []) =
      some ⟨[], ⟨0, []⟩, [(.agent 0 [], .agent 1 [])], ⟨[]⟩⟩ :=
  interact_no_rule_stuck ⟨[], ⟨0, []⟩, [], ⟨[]⟩⟩ 0 1 [] [] rfl rfl

/-- C5: when one side of `interact` is a variable whose slot holds a bound
tree `T`, the slot is removed and exactly one pending interaction pairing `T`
with the other side is pushed; when the slot is unbound, the variable is
bound to the other side and nothing is pushed.  (For Var/Var the source's
or-pattern resolves the second component's variable.) -/
theorem interact_var_spec (n : Net) (other : Tree) (aid : AgentId)
    (aaux : List Tree) (id : VarId) :
    (∀ T, n.vars.getSlot id = some (some T) →
      Net.interact n other (.var id) = some
        { n with vars := n.vars.removeSlot id,
                 interactions := n.interactions ++ [(other, T)] } ∧
      Net.interact n (.var id) (.agent aid aaux) = some
        { n with vars := n.vars.removeSlot id,
                 interactions := n.interactions ++ [(.agent aid aaux, T)] }) ∧
    (n.vars.getSlot id = some none →
      Net.interact n other (.var id) = some
        { n with vars := n.vars.setSlot id (some other) } ∧
      Net.interact n (.var id) (.agent aid aaux) = some
        { n with vars := n.vars.setSlot id (some (.agent aid aaux)) }) := by
  constructor
  · intro T hT
    constructor
    · cases other <;> simp [Net.interact, Net.interactVar, hT, Net.link]
    · simp [Net.interact, Net.interactVar, hT, Net.link]
  · intro hT
    constructor
    · cases other <;> simp [Net.interact, Net.interactVar, hT]
    · simp [Net.interact, Net.interactVar, hT]

theorem interact_var_spec_witness :
    Net.interact ⟨[], ⟨1, [(0, some (.agent 5 []))]⟩, [], ⟨[]⟩⟩ (.agent 7 []) (.var 0) =
      some ⟨[(.agent 7 [], .agent 5 [])], ⟨1, []⟩, [], ⟨[]⟩⟩ :=
  ((interact_var_spec ⟨[], ⟨1, [(0, some (.agent 5 []))]⟩, [], ⟨[]⟩⟩
      (.agent 7 []) 7 [] 0).1 (.agent 5 []) rfl).1

theorem lookup_append_eq_none {α β : Type} [BEq α] (l1 l2 : List (α × β)) (k : α) :
    (l1 ++ l2).lookup k = none ↔ l1.lookup k = none ∧ l2.lookup k = none := by
  induction l1 with
  | nil => simp [List.lookup]
  | cons a l ih =>
    cases h : k == a.1 with
    | true => simp [List.lookup, h]
    | false => simp [List.lookup, h, ih]

theorem lookup_singleton_eq_none {α β : Type} [BEq α] (k k' : α) (v : β) :
    ([(k', v)] : List (α × β)).lookup k = none ↔ (k == k') = false := by
  cases h : k == k' with
  | true => simp [List.lookup, h]
  | false => simp [List.lookup, h]

/-- The ordered-key insertion invariant of `build_interaction_system`,
generalized over the accumulator. -/
theorem buildGo_spec (defs : List Definition) :
    ∀ acc : InteractionSystem,
      ((defs.foldlM buildStep acc).isSome ↔
        ((defs.map fun d => (d.left.id, d.right.id)).Nodup ∧
          (∀ d ∈ defs, acc.rules.lookup (d.left.id, d.right.id) = none) ∧
          (∀ d ∈ defs, d.net.interactions = []))) ∧
      (∀ isys, defs.foldlM buildStep acc = some isys →
        isys.rules = acc.rules ++
          defs.map fun d => ((d.left.id, d.right.id), ⟨d.left.aux, d.right.aux⟩)) := by
  induction defs with
  | nil => intro acc; simp
  | cons d rest ih =>
    intro acc
    by_cases hdup : (acc.rules.lookup (d.left.id, d.right.id)).isSome
    · constructor
      · simp only [List.foldlM_cons, buildStep, InteractionSystem.getRule, hdup]
        simp only [if_true, Option.isSome_none]
        constructor
        · intro h; cases h
        · rintro ⟨-, h2, -⟩
          have := h2 d (List.mem_cons_self d rest)
          rw [this] at hdup
          cases hdup
      · intro isys h
        simp only [List.foldlM_cons, buildStep, InteractionSystem.getRule, hdup, if_true] at h
        cases h
    · by_cases hnet : d.net.interactions = []
      · have hstep : buildStep acc d =
            some ⟨acc.rules ++ [((d.left.id, d.right.id), ⟨d.left.aux, d.right.aux⟩)]⟩ := by
          simp [buildStep, InteractionSystem.getRule, hdup, hnet]
        have ihx := ih ⟨acc.rules ++ [((d.left.id, d.right.id), ⟨d.left.aux, d.right.aux⟩)]⟩
        constructor
        · rw [List.foldlM_cons, hstep]
          simp only [Option.bind_eq_bind, Option.some_bind]
          rw [ihx.1]
          constructor
          · rintro ⟨h1, h2, h3⟩
            refine ⟨?_, ?_, ?_⟩
            · rw [List.map_cons, List.nodup_cons]
              refine ⟨?_, h1⟩
              intro hmem
              obtain ⟨d', hd', hk⟩ := List.mem_map.mp hmem
              have := h2 d' hd'
              rw [lookup_append_eq_none] at this
              have h4 := this.2
              rw [lookup_singleton_eq_none] at h4
              rw [hk] at h4
              simp at h4
            · intro d' hd'
              rcases List.mem_cons.mp hd' with h | h
              · subst h
                exact Option.not_isSome_iff_eq_none.mp hdup
              · exact ((lookup_append_eq_none _ _ _).mp (h2 d' h)).1
            · intro d' hd'
              rcases List.mem_cons.mp hd' with h | h
              · subst h; exact hnet
              · exact h3 d' h
          · rintro ⟨h1, h2, h3⟩
            rw [List.map_cons, List.nodup_cons] at h1
            refine ⟨h1.2, ?_, fun d' hd' => h3 d' (List.mem_cons_of_mem d hd')⟩
            intro d' hd'
            rw [lookup_append_eq_none]
            refine ⟨h2 d' (List.mem_cons_of_mem d hd'), ?_⟩
            rw [lookup_singleton_eq_none]
            by_contra hbeq
            simp at hbeq
            exact h1.1 (List.mem_map.mpr ⟨d', hd', by rw [hbeq.1, hbeq.2]⟩)
        · intro isys h
          rw [List.foldlM_cons, hstep] at h
          simp only [Option.bind_eq_bind, Option.some_bind] at h
          have := ihx.2 isys h
          simpa using this
      · have hstep : buildStep acc d = none := by
          simp [buildStep, InteractionSystem.getRule, hdup, hnet]
        constructor
        · rw [List.foldlM_cons, hstep]
          constructor
          · intro h; simp at h
          · rintro ⟨-, -, h3⟩
            exact (hnet (h3 d (List.mem_cons_self d rest))).elim
        · intro isys h
          rw [List.foldlM_cons, hstep] at h
          simp at h

/-- C3 (amended): the InteractionSystem stores at most one rule per ORDERED
kind pair: `build_interaction_system` (hence `finish()`) succeeds exactly
when the ordered (left kind, right kind) keys of the loaded Definitions are
pairwise distinct and every Definition's captured net is empty, and then the
rule table holds exactly one entry per Definition, keyed by its ordered pair.
Rules keyed (A, B) and (B, A) for distinct A, B may coexist. -/
theorem build_interaction_system_spec (defs : List Definition) :
    ((build_interaction_system defs).isSome ↔
      ((defs.map fun d => (d.left.id, d.right.id)).Nodup ∧
        ∀ d ∈ defs, d.net.interactions = [])) ∧
    (∀ isys, build_interaction_system defs = some isys →
      isys.rules = defs.map fun d => ((d.left.id, d.right.id), ⟨d.left.aux, d.right.aux⟩)) := by
  have h := buildGo_spec defs ⟨[]⟩
  constructor
  · rw [build_interaction_system, h.1]
    simp [List.lookup]
  · intro isys hsome
    have := h.2 isys hsome
    simpa using this

theorem build_interaction_system_spec_witness :
    (build_interaction_system [defAB]).isSome = true ∧
    InteractionSystem.rules ⟨[((0, 1), ⟨[], []⟩)]⟩ =
      [defAB].map
        (fun d => ((d.left.id, d.right.id), ⟨d.left.aux, d.right.aux⟩)) :=
  ⟨by decide,
   (build_interaction_system_spec [defAB]).2 ⟨[((0, 1), ⟨[], []⟩)]⟩ rfl⟩

/-- C4: processing a Declaration synthesizes exactly one Definition, whose
left pattern is the Annotator applied to an Annotation of (the constructor
with each port's post-state as its aux, the declared parent-type pattern),
and whose right pattern is the constructor with port i replaced by an
Annotation of (pre-state of port i, declared type of port i). -/
theorem add_decl_annotator_rule_spec (annot ann : AgentId)
    (defs : List Definition) (decls : List Declaration) (decl : Declaration) :
    (process_decl annot ann defs decls decl).1 =
        defs ++ [add_decl_annotator_rule annot ann decl] ∧
    (process_decl annot ann defs decls decl).1.length = defs.length + 1 ∧
    (process_decl annot ann defs decls decl).2 = decls ++ [decl] ∧
    (add_decl_annotator_rule annot ann decl).left.id = annot ∧
    (add_decl_annotator_rule annot ann decl).left.aux =
      [Tree.agent ann
        [Tree.agent decl.agent.id (decl.agent.aux.map fun x => x.2.1),
         Tree.agent decl.type.id decl.type.aux]] ∧
    (add_decl_annotator_rule annot ann decl).right.id = decl.agent.id ∧
    (add_decl_annotator_rule annot ann decl).right.aux.length = decl.agent.aux.length ∧
    (∀ i, ∀ _ : i < decl.agent.aux.length,
      (add_decl_annotator_rule annot ann decl).right.aux[i]? =
        some (Tree.agent ann [(decl.agent.aux[i]).1, (decl.agent.aux[i]).2.2]) ∧
      (decl.agent.aux.map fun x => x.2.1)[i]? = some (decl.agent.aux[i]).2.1) := by
  refine ⟨rfl, by simp [process_decl], rfl, rfl, rfl, rfl,
    by simp [add_decl_annotator_rule], ?_⟩
  intro i h
  constructor
  · simp [add_decl_annotator_rule, List.getElem?_map, List.getElem?_eq_getElem h]
  · simp [List.getElem?_map, List.getElem?_eq_getElem h]

theorem add_decl_annotator_rule_spec_witness :
    (add_decl_annotator_rule 10 11 sampleDecl).right.aux[0]? =
        some (Tree.agent 11 [Tree.var 0, Tree.agent 9 []]) ∧
    (sampleDecl.agent.aux.map fun x => x.2.1)[0]? = some (Tree.var 1) :=
  (add_decl_annotator_rule_spec 10 11 [] [] sampleDecl).2.2.2.2.2.2.2 0 (by decide)

theorem attach_flatMap {α β : Type} (l : List α) (g : α → List β) :
    l.attach.flatMap (fun x => g x.1) = l.flatMap g := by
  have h : l.attach.map Subtype.val = l := by
    have := List.attach_map_val l id
    simpa using this
  calc l.attach.flatMap (fun x => g x.1)
      = (l.attach.map Subtype.val).flatMap g := by rw [List.flatMap_map]
    _ = l.flatMap g := by rw [h]

/-- Unfolding of `get_nth_instances` without the termination `attach`. -/
theorem get_nth_instances_eq (decls : List Declaration) (t : AgentId) (d : Nat) :
    get_nth_instances decls t d = decls.flatMap fun i =>
      if i.intermediate.length = d then
        (if i.type.id = t then [i.agent.id] else []) ++
        (if i.agent.id = t then get_nth_instances decls i.type.id (d + 1) else [])
      else [] := by
  rw [get_nth_instances]
  simp only [dite_eq_ite]
  exact attach_flatMap decls fun i =>
    if i.intermediate.length = d then
      (if i.type.id = t then [i.agent.id] else []) ++
      (if i.agent.id = t then get_nth_instances decls i.type.id (d + 1) else [])
    else []

/-- C10: `get_nth_instances` terminates for every finite list of
Declarations: each nested recursive invocation raises the depth by exactly 1
and only passes through a Declaration whose intermediate list has length
exactly the current depth, so a recursion budget of
`maxIntermediate decls + 2 - d` invocations (the initial call plus at most
`maxIntermediate + 1 - d` nested descents) always suffices to reproduce the
total function. -/
theorem get_nth_instances_fuel_spec (decls : List Declaration) :
    ∀ fuel t d, maxIntermediate decls + 2 ≤ fuel + d → 0 < fuel →
      get_nth_instances_fuel decls fuel t d = some (get_nth_instances decls t d) := by
  intro fuel
  induction fuel with
  | zero => intro t d _ h0; cases h0
  | succ f ih =>
    intro t d hle _
    have hgo : ∀ l : List Declaration, (∀ i ∈ l, i ∈ decls) →
        gni_go decls f t d l = some (l.flatMap fun i =>
          if i.intermediate.length = d then
            (if i.type.id = t then [i.agent.id] else []) ++
            (if i.agent.id = t then get_nth_instances decls i.type.id (d + 1) else [])
          else []) := by
      intro l
      induction l with
      | nil => intro _; simp [gni_go]
      | cons i rest ihl =>
        intro hmem
        have hrest := ihl fun j hj => hmem j (List.mem_cons_of_mem i hj)
        by_cases hd : i.intermediate.length = d
        · have hdmax : d ≤ maxIntermediate decls := by
            have := length_le_maxIntermediate (hmem i (List.mem_cons_self i rest))
            omega
          by_cases ha : i.agent.id = t
          · have hf : get_nth_instances_fuel decls f i.type.id (d + 1) =
                some (get_nth_instances decls i.type.id (d + 1)) :=
              ih i.type.id (d + 1) (by omega) (by omega)
            simp [gni_go, hd, ha, hf, hrest]
          · simp [gni_go, hd, ha, hrest]
        · simp [gni_go, hd, hrest]
    have hunfold : get_nth_instances_fuel decls (f + 1) t d = gni_go decls f t d decls := by
      simp [get_nth_instances_fuel]
    rw [hunfold, hgo decls fun _ h => h, ← get_nth_instances_eq]

theorem get_nth_instances_fuel_spec_witness :
    get_nth_instances_fuel [sampleDecl] 2 4 0 =
      some (get_nth_instances [sampleDecl] 4 0) :=
  get_nth_instances_fuel_spec [sampleDecl] 2 4 0 (by decide) (by decide)

theorem require_all_ok_iff (p : Program) :
    ∀ l : List (AgentId × AgentId),
      (require_all p l = some (.ok ()) ↔
        ∀ pr ∈ l, rule_defined p.definitions pr.1 pr.2 = true) := by
  intro l
  induction l with
  | nil => simp [require_all]
  | cons ab rest ih =>
    obtain ⟨a, b⟩ := ab
    by_cases h : rule_defined p.definitions a b
    · simp only [require_all, require_defined, h, if_true]
      rw [ih]
      constructor
      · intro hall pr hpr
        rcases List.mem_cons.mp hpr with hh | hh
        · subst hh; exact h
        · exact hall pr hh
      · intro hall pr hpr
        exact hall pr (List.mem_cons_of_mem _ hpr)
    · constructor
      · intro hok
        exfalso
        simp only [require_all, require_defined, h, if_false] at hok
        cases hla : lookup_agent p.agent_scope a <;>
          cases hlb : lookup_agent p.agent_scope b <;>
            rw [hla, hlb] at hok <;> simp at hok
      · intro hall
        exact absurd (hall (a, b) (List.mem_cons_self _ _)) (by simp [h])

theorem require_all_first_error (p : Program) :
    ∀ (pre : List (AgentId × AgentId)) (a b : AgentId)
      (post : List (AgentId × AgentId)) (na nb : String),
      (∀ pr ∈ pre, rule_defined p.definitions pr.1 pr.2 = true) →
      rule_defined p.definitions a b = false →
      lookup_agent p.agent_scope a = some na →
      lookup_agent p.agent_scope b = some nb →
      require_all p (pre ++ (a, b) :: post) =
        some (.error s!"Undefined interaction between {na} and {nb}") := by
  intro pre
  induction pre with
  | nil =>
    intro a b post na nb _ hnd hla hlb
    simp only [List.nil_append, require_all, require_defined, hnd, Bool.false_eq_true,
      if_false, hla, hlb]
  | cons pr rest ih =>
    intro a b post na nb hpre hnd hla hlb
    obtain ⟨c, d⟩ := pr
    have hcd : rule_defined p.definitions c d = true :=
      hpre (c, d) (List.mem_cons_self _ _)
    simp only [List.cons_append, require_all, require_defined, hcd, if_true]
    exact ih a b post na nb (fun x hx => hpre x (List.mem_cons_of_mem _ hx)) hnd hla hlb

/-- C6: `check_completeness` succeeds iff for every Definition every pair in
the Cartesian product of the depth-0 instances of its two sides has some
Definition with those kinds in either order; the first missing pair in loop
order is reported with an error naming both concrete kinds, and only that
first occurrence is surfaced. -/
theorem check_completeness_spec (p : Program) :
    (check_completeness p = some (.ok ()) ↔
      ∀ dd ∈ p.definitions, ∀ i ∈ get_nth_instances p.declarations dd.left.id 0,
        ∀ j ∈ get_nth_instances p.declarations dd.right.id 0,
          rule_defined p.definitions i j = true) ∧
    (∀ (pre : List (AgentId × AgentId)) (a b : AgentId)
       (post : List (AgentId × AgentId)) (na nb : String),
      completeness_pairs p = pre ++ (a, b) :: post →
      (∀ pr ∈ pre, rule_defined p.definitions pr.1 pr.2 = true) →
      rule_defined p.definitions a b = false →
      lookup_agent p.agent_scope a = some na →
      lookup_agent p.agent_scope b = some nb →
      check_completeness p =
        some (.error s!"Undefined interaction between {na} and {nb}")) := by
  constructor
  · rw [check_completeness, require_all_ok_iff]
    constructor
    · intro h dd hdd i hi j hj
      refine h (i, j) ?_
      simp only [completeness_pairs, List.mem_flatMap, List.mem_map]
      exact ⟨dd, hdd, i, hi, j, hj, rfl⟩
    · intro h pr hpr
      simp only [completeness_pairs, List.mem_flatMap, List.mem_map] at hpr
      obtain ⟨dd, hdd, i, hi, j, hj, heq⟩ := hpr
      rw [← heq]
      exact h dd hdd i hi j hj
  · intro pre a b post na nb hsplit hpre hnd hla hlb
    rw [check_completeness, hsplit]
    exact require_all_first_error p pre a b post na nb hpre hnd hla hlb

theorem gni_progC_depth1 :
    get_nth_instances
      [⟨⟨0, []⟩, [], ⟨2, []⟩, emptyNet⟩,
       ⟨⟨1, [(Tree.var 0, Tree.var 0, Tree.agent 2 [])]⟩, [], ⟨2, []⟩, emptyNet⟩]
      2 1 = [] := by
  rw [get_nth_instances_eq]
  simp

theorem gni_progC_nat :
    get_nth_instances
      [⟨⟨0, []⟩, [], ⟨2, []⟩, emptyNet⟩,
       ⟨⟨1, [(Tree.var 0, Tree.var 0, Tree.agent 2 [])]⟩, [], ⟨2, []⟩, emptyNet⟩]
      2 0 = [0, 1] := by
  rw [get_nth_instances_eq]
  simp

theorem gni_progC_z :
    get_nth_instances
      [⟨⟨0, []⟩, [], ⟨2, []⟩, emptyNet⟩,
       ⟨⟨1, [(Tree.var 0, Tree.var 0, Tree.agent 2 [])]⟩, [], ⟨2, []⟩, emptyNet⟩]
      0 0 = [] := by
  rw [get_nth_instances_eq]
  simp [gni_progC_depth1]

theorem check_completeness_spec_witness :
    check_completeness progC = some (.error "Undefined interaction between Z and S") :=
  (check_completeness_spec progC).2 [(0, 0)] 0 1 [(1, 0), (1, 1)] "Z" "S"
    (by simp [completeness_pairs, progC, gni_progC_nat, gni_progC_z])
    (by decide) (by decide) (by decide) (by decide)

theorem lookup_filter_self {β : Type} (l : List (Nat × β)) (id : Nat) :
    (l.filter fun kv => kv.1 ≠ id).lookup id = none := by
  simp
  intro a b _ hne
  exact Ne.symm hne

theorem lookup_filter_ne {β : Type} (l : List (Nat × β)) (id v : Nat) (h : v ≠ id) :
    (l.filter fun kv => kv.1 ≠ id).lookup v = l.lookup v := by
  induction l with
  | nil => rfl
  | cons kv rest ih =>
    obtain ⟨k, w⟩ := kv
    simp only [decide_not] at ih
    by_cases hk : k = id
    · subst hk
      have hvk : (v == k) = false := by simp [h]
      simp [List.filter_cons, List.lookup, hvk, ih]
    · by_cases hvk : v = k
      · subst hvk
        simp [List.filter_cons, hk, List.lookup]
      · have hb : (v == k) = false := by simp [hvk]
        simp [List.filter_cons, hk, List.lookup, hb, ih]

theorem getSlot_removeSlot_self (s : VarStore) (id : VarId) :
    (s.removeSlot id).getSlot id = none :=
  lookup_filter_self s.slots id

theorem getSlot_removeSlot_ne (s : VarStore) (id v : VarId) (h : v ≠ id) :
    (s.removeSlot id).getSlot v = s.getSlot v :=
  lookup_filter_ne s.slots id v h

theorem next_removeSlot (s : VarStore) (id : VarId) :
    (s.removeSlot id).next = s.next := rfl

/-- Every variable occurring in a successful `substitute_ref` result is
unbound in the store (the result is fully resolved). -/
theorem subRef_result_resolved (vars : VarStore) :
    ∀ (fuel : Nat) (t : Tree) (r : Tree),
      Net.substitute_ref vars fuel t = some r →
      ∀ v, 0 < countVar v r → ∀ b, vars.getSlot v ≠ some (some b) := by
  intro fuel t
  refine Net.substitute_ref.induct vars
    (fun fuel t => ∀ r, Net.substitute_ref vars fuel t = some r →
      ∀ v, 0 < countVar v r → ∀ b, vars.getSlot v ≠ some (some b))
    (fun fuel ts => ∀ rs, Net.substituteRefList vars fuel ts = some rs →
      ∀ v, 0 < countVarList v rs → ∀ b, vars.getSlot v ≠ some (some b))
    ?_ ?_ ?_ ?_ ?_ ?_ ?_ ?_ fuel t
  · intro fuel id aux ih r h v hv b
    simp only [Net.substitute_ref] at h
    obtain ⟨rs, hrs, rfl⟩ := Option.map_eq_some'.mp h
    simp only [countVar] at hv
    exact ih rs hrs v hv b
  · intro id b hb r h
    simp [Net.substitute_ref, hb] at h
  · intro id b hb fuel ih r h
    simp only [Net.substitute_ref, hb] at h
    exact ih r h
  · intro fuel id hnb r h
    have hcase : Net.substitute_ref vars fuel (.var id) = some (.var id) := by
      cases hsl : vars.getSlot id with
      | none => simp [Net.substitute_ref, hsl]
      | some o =>
        cases o with
        | none => simp [Net.substitute_ref, hsl]
        | some b => exact absurd hsl (fun hh => hnb b hh)
    rw [hcase] at h
    obtain rfl : Tree.var id = r := by injection h
    intro v hv b hslot
    simp only [countVar] at hv
    by_cases hvid : id = v
    · subst hvid
      exact hnb b hslot
    · simp [hvid] at hv
  · intro fuel rs h
    simp only [Net.substituteRefList] at h
    obtain rfl : ([] : List Tree) = rs := by injection h
    intro v hv
    simp [countVarList] at hv
  · intro fuel t ts hnone _ rs h
    simp only [Net.substituteRefList, hnone] at h
    cases h
  · intro fuel t ts t' ht hts _ _ rs h
    simp only [Net.substituteRefList, ht, hts] at h
    cases h
  · intro fuel t ts t' ht rs' hts iht ihts rs h
    simp only [Net.substituteRefList, ht, hts] at h
    obtain rfl : t' :: rs' = rs := by injection h
    intro v hv b
    simp only [countVarList] at hv
    by_cases hvt : 0 < countVar v t'
    · exact iht t' ht v hvt b
    · exact ihts rs' hts v (by omega) b

/-- A fully resolved tree is a fixed point of `substitute_ref`, for any
fuel. -/
theorem subRef_of_resolved (vars : VarStore) :
    ∀ (fuel : Nat) (t : Tree),
      (∀ v, 0 < countVar v t → ∀ b, vars.getSlot v ≠ some (some b)) →
      Net.substitute_ref vars fuel t = some t := by
  intro fuel t
  refine Net.substitute_ref.induct vars
    (fun fuel t => (∀ v, 0 < countVar v t → ∀ b, vars.getSlot v ≠ some (some b)) →
      Net.substitute_ref vars fuel t = some t)
    (fun fuel ts => (∀ v, 0 < countVarList v ts → ∀ b, vars.getSlot v ≠ some (some b)) →
      Net.substituteRefList vars fuel ts = some ts)
    ?_ ?_ ?_ ?_ ?_ ?_ ?_ ?_ fuel t
  · intro fuel id aux ih hres
    have := ih (by intro v hv b; exact hres v (by simpa [countVar] using hv) b)
    simp [Net.substitute_ref, this]
  · intro id b hb hres
    exact absurd hb (hres id (by simp [countVar]) b)
  · intro id b hb fuel _ hres
    exact absurd hb (hres id (by simp [countVar]) b)
  · intro fuel id hnb _
    cases hsl : vars.getSlot id with
    | none => simp [Net.substitute_ref, hsl]
    | some o =>
      cases o with
      | none => simp [Net.substitute_ref, hsl]
      | some b => exact absurd hsl (fun hh => hnb b hh)
  · intro fuel _
    simp [Net.substituteRefList]
  · intro fuel t ts hnone iht hres
    have := iht (by intro v hv b; exact hres v (by simp [countVarList]; omega) b)
    rw [this] at hnone
    cases hnone
  · intro fuel t ts t' ht htsnone iht ihts hres
    have := ihts (by intro v hv b; exact hres v (by simp [countVarList]; omega) b)
    rw [this] at htsnone
    cases htsnone
  · intro fuel t ts t' ht rs' hts iht ihts hres
    have h1 := iht (by intro v hv b; exact hres v (by simp [countVarList]; omega) b)
    have h2 := ihts (by intro v hv b; exact hres v (by simp [countVarList]; omega) b)
    rw [h1] at ht
    rw [h2] at hts
    obtain rfl : t = t' := by injection ht
    obtain rfl : ts = rs' := by injection hts
    simp [Net.substituteRefList, h1, h2]

/-- `substitute_ref` only reads the slots of variables occurring in the
tree, provided every stored binding of the reference store is
variable-free. -/
theorem subRef_store_agree (vars : VarStore)
    (hb : ∀ v b, vars.getSlot v = some (some b) → ∀ w, countVar w b = 0) :
    ∀ (fuel : Nat) (t : Tree) (vars' : VarStore),
      (∀ v, 0 < countVar v t → vars'.getSlot v = vars.getSlot v) →
      Net.substitute_ref vars' fuel t = Net.substitute_ref vars fuel t := by
  intro fuel t
  refine Net.substitute_ref.induct vars
    (fun fuel t => ∀ vars' : VarStore,
      (∀ v, 0 < countVar v t → vars'.getSlot v = vars.getSlot v) →
      Net.substitute_ref vars' fuel t = Net.substitute_ref vars fuel t)
    (fun fuel ts => ∀ vars' : VarStore,
      (∀ v, 0 < countVarList v ts → vars'.getSlot v = vars.getSlot v) →
      Net.substituteRefList vars' fuel ts = Net.substituteRefList vars fuel ts)
    ?_ ?_ ?_ ?_ ?_ ?_ ?_ ?_ fuel t
  · intro fuel id aux ih vars' hag
    have := ih vars' (by intro v hv; exact hag v (by simpa [countVar] using hv))
    simp only [Net.substitute_ref, this]
  · intro id b hsl vars' hag
    have hsl' : vars'.getSlot id = some (some b) :=
      (hag id (by simp [countVar])).trans hsl
    simp [Net.substitute_ref, hsl, hsl']
  · intro id b hsl fuel _ vars' hag
    have hsl' : vars'.getSlot id = some (some b) :=
      (hag id (by simp [countVar])).trans hsl
    have hfree := hb id b hsl
    have h1 : Net.substitute_ref vars' fuel b = some b :=
      subRef_of_resolved vars' fuel b
        (by intro v hv b'; rw [hfree v] at hv; cases hv)
    have h2 : Net.substitute_ref vars fuel b = some b :=
      subRef_of_resolved vars fuel b
        (by intro v hv b'; rw [hfree v] at hv; cases hv)
    simp only [Net.substitute_ref, hsl, hsl']
    rw [h1, h2]
  · intro fuel id hnb vars' hag
    have heq : vars'.getSlot id = vars.getSlot id := hag id (by simp [countVar])
    cases hsl : vars.getSlot id with
    | none => simp [Net.substitute_ref, hsl, heq.trans hsl]
    | some o =>
      cases o with
      | none => simp [Net.substitute_ref, hsl, heq.trans hsl]
      | some b => exact absurd hsl (fun hh => hnb b hh)
  · intro fuel vars' _
    simp [Net.substituteRefList]
  · intro fuel t ts hnone iht vars' hag
    have h1 := iht vars' (by intro v hv; exact hag v (by simp [countVarList]; omega))
    simp only [Net.substituteRefList, hnone, h1.trans hnone]
  · intro fuel t ts t' ht htsnone iht ihts vars' hag
    have h1 := iht vars' (by intro v hv; exact hag v (by simp [countVarList]; omega))
    have h2 := ihts vars' (by intro v hv; exact hag v (by simp [countVarList]; omega))
    simp only [Net.substituteRefList, ht, htsnone, h1.trans ht, h2.trans htsnone]
  · intro fuel t ts t' ht rs' hts iht ihts vars' hag
    have h1 := iht vars' (by intro v hv; exact hag v (by simp [countVarList]; omega))
    have h2 := ihts vars' (by intro v hv; exact hag v (by simp [countVarList]; omega))
    simp only [Net.substituteRefList, ht, hts, h1.trans ht, h2.trans hts]

/-- List version of `subRef_store_agree`. -/
theorem subRefList_store_agree (vars : VarStore)
    (hb : ∀ v b, vars.getSlot v = some (some b) → ∀ w, countVar w b = 0)
    (fuel : Nat) :
    ∀ (ts : List Tree) (vars' : VarStore),
      (∀ v, 0 < countVarList v ts → vars'.getSlot v = vars.getSlot v) →
      Net.substituteRefList vars' fuel ts = Net.substituteRefList vars fuel ts := by
  intro ts
  induction ts with
  | nil => intro vars' _; simp [Net.substituteRefList]
  | cons t ts ih =>
    intro vars' hag
    have h1 := subRef_store_agree vars hb fuel t vars'
      (by intro v hv; exact hag v (by simp [countVarList]; omega))
    have h2 := ih vars' (by intro v hv; exact hag v (by simp [countVarList]; omega))
    simp only [Net.substituteRefList, h1, h2]

/-- A variable-free tree is a fixed point of destructive `substitute`, and
consumes nothing. -/
theorem substitute_of_varfree :
    ∀ (vars : VarStore) (fuel : Nat) (t : Tree),
      (∀ w, countVar w t = 0) → Net.substitute vars fuel t = some (t, vars) := by
  refine Net.substitute.induct
    (fun vars fuel t => (∀ w, countVar w t = 0) →
      Net.substitute vars fuel t = some (t, vars))
    (fun vars fuel ts => (∀ w, countVarList w ts = 0) →
      Net.substituteList vars fuel ts = some (ts, vars))
    ?_ ?_ ?_ ?_ ?_ ?_ ?_ ?_ ?_
  · intro vars fuel id aux ih hfree
    have := ih (by intro w; simpa [countVar] using hfree w)
    simp [Net.substitute, this]
  · intro vars fuel id _ hfree
    have := hfree id
    simp [countVar] at this
  · intro vars fuel id _ hfree
    have := hfree id
    simp [countVar] at this
  · intro vars id b _ hfree
    have := hfree id
    simp [countVar] at this
  · intro vars id b _ fuel _ hfree
    have := hfree id
    simp [countVar] at this
  · intro vars fuel _
    simp [Net.substituteList]
  · intro vars fuel t ts hnone iht hfree
    have := iht (by intro w; have := hfree w; simp [countVarList] at this; omega)
    rw [this] at hnone
    cases hnone
  · intro vars fuel t ts t' vars' ht htsnone iht ihts hfree
    have h1 := iht (by intro w; have := hfree w; simp [countVarList] at this; omega)
    rw [h1] at ht
    have hpair := Option.some.inj ht
    have ht' : t = t' := congrArg Prod.fst hpair
    have hv' : vars = vars' := congrArg Prod.snd hpair
    subst ht'
    subst hv'
    have h2 := ihts (by intro w; have := hfree w; simp [countVarList] at this; omega)
    rw [h2] at htsnone
    cases htsnone
  · intro vars fuel t ts t' vars' ht ts' vars'' hts iht ihts hfree
    have h1 := iht (by intro w; have := hfree w; simp [countVarList] at this; omega)
    rw [h1] at ht
    have hpair := Option.some.inj ht
    have ht' : t = t' := congrArg Prod.fst hpair
    have hv' : vars = vars' := congrArg Prod.snd hpair
    subst ht'
    subst hv'
    have h2 := ihts (by intro w; have := hfree w; simp [countVarList] at this; omega)
    simp [Net.substituteList, h1, h2]

/-- Under linearity (each variable occurs at most once, every occurring
variable has a slot, stored bindings are variable-free), destructive
`substitute` returns exactly the tree `substitute_ref` returns and removes
exactly the bindings it consumed. -/
theorem substitute_agrees_aux :
    ∀ (vars : VarStore) (fuel : Nat) (t : Tree),
      1 ≤ fuel →
      (∀ v, countVar v t ≤ 1) →
      (∀ v, 0 < countVar v t → (vars.getSlot v).isSome) →
      (∀ v b, vars.getSlot v = some (some b) → ∀ w, countVar w b = 0) →
      ∃ r vars2,
        Net.substitute_ref vars fuel t = some r ∧
        Net.substitute vars fuel t = some (r, vars2) ∧
        vars2.next = vars.next ∧
        (∀ v b, 0 < countVar v t → vars.getSlot v = some (some b) →
          vars2.getSlot v = none) ∧
        (∀ v, countVar v t = 0 → vars2.getSlot v = vars.getSlot v) ∧
        (∀ v, vars.getSlot v = some none → vars2.getSlot v = vars.getSlot v) := by
  refine Net.substitute.induct
    (fun vars fuel t =>
      1 ≤ fuel →
      (∀ v, countVar v t ≤ 1) →
      (∀ v, 0 < countVar v t → (vars.getSlot v).isSome) →
      (∀ v b, vars.getSlot v = some (some b) → ∀ w, countVar w b = 0) →
      ∃ r vars2,
        Net.substitute_ref vars fuel t = some r ∧
        Net.substitute vars fuel t = some (r, vars2) ∧
        vars2.next = vars.next ∧
        (∀ v b, 0 < countVar v t → vars.getSlot v = some (some b) →
          vars2.getSlot v = none) ∧
        (∀ v, countVar v t = 0 → vars2.getSlot v = vars.getSlot v) ∧
        (∀ v, vars.getSlot v = some none → vars2.getSlot v = vars.getSlot v))
    (fun vars fuel ts =>
      1 ≤ fuel →
      (∀ v, countVarList v ts ≤ 1) →
      (∀ v, 0 < countVarList v ts → (vars.getSlot v).isSome) →
      (∀ v b, vars.getSlot v = some (some b) → ∀ w, countVar w b = 0) →
      ∃ rs vars2,
        Net.substituteRefList vars fuel ts = some rs ∧
        Net.substituteList vars fuel ts = some (rs, vars2) ∧
        vars2.next = vars.next ∧
        (∀ v b, 0 < countVarList v ts → vars.getSlot v = some (some b) →
          vars2.getSlot v = none) ∧
        (∀ v, countVarList v ts = 0 → vars2.getSlot v = vars.getSlot v) ∧
        (∀ v, vars.getSlot v = some none → vars2.getSlot v = vars.getSlot v))
    ?_ ?_ ?_ ?_ ?_ ?_ ?_ ?_ ?_
  · intro vars fuel id aux ih hf hc hs hb
    obtain ⟨rs, vars2, h1, h2, h3, h4, h5, h6⟩ :=
      ih hf (by intro v; simpa [countVar] using hc v)
        (by intro v hv; exact hs v (by simpa [countVar] using hv)) hb
    refine ⟨.agent id rs, vars2, ?_, ?_, h3, ?_, ?_, h6⟩
    · simp [Net.substitute_ref, h1]
    · simp [Net.substitute, h2]
    · intro v b hv hbd
      exact h4 v b (by simpa [countVar] using hv) hbd
    · intro v hv
      exact h5 v (by simpa [countVar] using hv)
  · intro vars fuel id hsl _ _ hs _
    have := hs id (by simp [countVar])
    rw [hsl] at this
    cases this
  · intro vars fuel id hsl _ _ _ hb
    refine ⟨.var id, vars, ?_, ?_, rfl, ?_, fun _ _ => rfl, fun _ _ => rfl⟩
    · simp [Net.substitute_ref, hsl]
    · simp [Net.substitute, hsl]
    · intro v b hv hbd
      have hvid : v = id := by
        by_cases h : id = v
        · exact h.symm
        · simp [countVar, h] at hv
      rw [hvid] at hbd
      rw [hbd] at hsl
      cases hsl
  · intro vars id b hsl hf
    cases hf
  · intro vars id b hsl fuel _ _ _ _ hb
    have hfree := hb id b hsl
    have hsub : Net.substitute (vars.removeSlot id) fuel b =
        some (b, vars.removeSlot id) :=
      substitute_of_varfree (vars.removeSlot id) fuel b hfree
    have href : Net.substitute_ref vars fuel b = some b :=
      subRef_of_resolved vars fuel b
        (by intro v hv b'; rw [hfree v] at hv; cases hv)
    refine ⟨b, vars.removeSlot id, ?_, ?_, next_removeSlot vars id, ?_, ?_, ?_⟩
    · simp only [Net.substitute_ref, hsl]
      exact href
    · simp only [Net.substitute, hsl]
      exact hsub
    · intro v b' hv _
      have hvid : v = id := by
        by_cases h : id = v
        · exact h.symm
        · simp [countVar, h] at hv
      rw [hvid]
      exact getSlot_removeSlot_self vars id
    · intro v hv
      have hvid : v ≠ id := by
        intro h
        rw [h] at hv
        simp [countVar] at hv
      exact getSlot_removeSlot_ne vars id v hvid
    · intro v hv
      have hvid : v ≠ id := by
        intro h
        rw [h, hsl] at hv
        cases hv
      exact getSlot_removeSlot_ne vars id v hvid
  · intro vars fuel _ _ _ _
    exact ⟨[], vars, by simp [Net.substituteRefList], by simp [Net.substituteList],
      rfl, by simp [countVarList], fun _ _ => rfl, fun _ _ => rfl⟩
  · intro vars fuel t ts hnone iht hf hc hs hb
    obtain ⟨r, vars2, _, h2, _⟩ :=
      iht hf (by intro v; have := hc v; simp [countVarList] at this; omega)
        (by intro v hv; exact hs v (by simp [countVarList]; omega)) hb
    rw [h2] at hnone
    cases hnone
  · intro vars fuel t ts t' vars' ht htsnone iht ihts hf hc hs hb
    obtain ⟨r, vars2, hr1, hr2, hr3, hr4, hr5, hr6⟩ :=
      iht hf (by intro v; have := hc v; simp [countVarList] at this; omega)
        (by intro v hv; exact hs v (by simp [countVarList]; omega)) hb
    rw [hr2] at ht
    have hpair := Option.some.inj ht
    have ht' : r = t' := congrArg Prod.fst hpair
    have hv' : vars2 = vars' := congrArg Prod.snd hpair
    subst ht'
    subst hv'
    have hdisj : ∀ v, 0 < countVarList v ts → countVar v t = 0 := by
      intro v hv
      have := hc v
      simp [countVarList] at this
      omega
    obtain ⟨rs, vars3, hs1, hs2, _⟩ :=
      ihts hf (by intro v; have := hc v; simp [countVarList] at this; omega)
        (by intro v hv
            rw [hr5 v (hdisj v hv)]
            exact hs v (by simp [countVarList]; omega))
        (by intro v b hbd w
            by_cases hct : 0 < countVar v t
            · have hsv := hs v (by simp [countVarList]; omega)
              cases hslv : vars.getSlot v with
              | none => rw [hslv] at hsv; cases hsv
              | some o =>
                cases o with
                | none => rw [hr6 v hslv, hslv] at hbd; cases hbd
                | some b0 => rw [hr4 v b0 hct hslv] at hbd; cases hbd
            · rw [hr5 v (by omega)] at hbd
              exact hb v b hbd w)
    rw [hs2] at htsnone
    cases htsnone
  · intro vars fuel t ts t' vars' ht ts' vars'' hts iht ihts hf hc hs hb
    obtain ⟨r, vars2, hr1, hr2, hr3, hr4, hr5, hr6⟩ :=
      iht hf (by intro v; have := hc v; simp [countVarList] at this; omega)
        (by intro v hv; exact hs v (by simp [countVarList]; omega)) hb
    rw [hr2] at ht
    have hpair := Option.some.inj ht
    have ht' : r = t' := congrArg Prod.fst hpair
    have hv' : vars2 = vars' := congrArg Prod.snd hpair
    subst ht'
    subst hv'
    have hdisj : ∀ v, 0 < countVarList v ts → countVar v t = 0 := by
      intro v hv
      have := hc v
      simp [countVarList] at this
      omega
    have hsvars' : ∀ v, 0 < countVarList v ts → vars2.getSlot v = vars.getSlot v :=
      fun v hv => hr5 v (hdisj v hv)
    have hbvars' : ∀ v b, vars2.getSlot v = some (some b) → ∀ w, countVar w b = 0 := by
      intro v b hbd w
      by_cases hct : 0 < countVar v t
      · have hsv := hs v (by simp [countVarList]; omega)
        cases hslv : vars.getSlot v with
        | none => rw [hslv] at hsv; cases hsv
        | some o =>
          cases o with
          | none => rw [hr6 v hslv, hslv] at hbd; cases hbd
          | some b0 => rw [hr4 v b0 hct hslv] at hbd; cases hbd
      · rw [hr5 v (by omega)] at hbd
        exact hb v b hbd w
    obtain ⟨rs, vars3, hs1, hs2, hs3, hs4, hs5, hs6⟩ :=
      ihts hf (by intro v; have := hc v; simp [countVarList] at this; omega)
        (by intro v hv; rw [hsvars' v hv]; exact hs v (by simp [countVarList]; omega))
        hbvars'
    have hs1' : Net.substituteRefList vars fuel ts = some rs := by
      rw [← subRefList_store_agree vars hb fuel ts vars2 hsvars']
      exact hs1
    refine ⟨r :: rs, vars3, ?_, ?_, hs3.trans hr3, ?_, ?_, ?_⟩
    · simp [Net.substituteRefList, hr1, hs1']
    · simp [Net.substituteList, hr2, hs2]
    · intro v b hv hbd
      simp only [countVarList] at hv
      by_cases hct : 0 < countVar v t
      · have hts0 : countVarList v ts = 0 := by
          have := hc v
          simp [countVarList] at this
          omega
        rw [hs5 v hts0]
        exact hr4 v b hct hbd
      · have htsgt : 0 < countVarList v ts := by omega
        refine hs4 v b htsgt ?_
        rw [hr5 v (by omega)]
        exact hbd
    · intro v hv
      simp only [countVarList] at hv
      rw [hs5 v (by omega), hr5 v (by omega)]
    · intro v hv
      have h1 : vars2.getSlot v = some none := by
        rw [hr6 v hv]
        exact hv
      rw [hs6 v h1, h1, hv]

/-- Sample store binding variable 0 to the closed tree `agent 7`. -/
def cexStore : VarStore := ⟨1, [(0, some (.agent 7 []))]⟩

/-- C8 (amended): `substitute_ref` never mutates the variable store (in
this embedding it is a pure function of the store, mirroring the `&self`
receiver) and is idempotent — re-applying it to any successful result
returns that result unchanged, for any fuel.  `substitute` performs the
same resolution — returning the tree `substitute_ref` returns on the same
store state while removing exactly the bindings it consumed — provided it
consumes each binding at most once: when every variable occurs at most
once in the input, every occurring variable has a slot, and every stored
binding is variable-free.  (On a repeated occurrence of a bound variable
the slot has already been removed and `substitute` panics, unlike
`substitute_ref`; see the counterexample.) -/
theorem substitute_ref_substitute_spec :
    (∀ (vars : VarStore) (fuel fuel' : Nat) (t r : Tree),
      Net.substitute_ref vars fuel t = some r →
      Net.substitute_ref vars fuel' r = some r) ∧
    (∀ (vars : VarStore) (fuel : Nat) (t : Tree),
      1 ≤ fuel →
      (∀ v, countVar v t ≤ 1) →
      (∀ v, 0 < countVar v t → (vars.getSlot v).isSome) →
      (∀ v b, vars.getSlot v = some (some b) → ∀ w, countVar w b = 0) →
      ∃ r vars2,
        Net.substitute_ref vars fuel t = some r ∧
        Net.substitute vars fuel t = some (r, vars2) ∧
        vars2.next = vars.next ∧
        (∀ v b, 0 < countVar v t → vars.getSlot v = some (some b) →
          vars2.getSlot v = none) ∧
        (∀ v, countVar v t = 0 → vars2.getSlot v = vars.getSlot v) ∧
        (∀ v, vars.getSlot v = some none → vars2.getSlot v = vars.getSlot v)) :=
  ⟨fun vars fuel fuel' t r h =>
      subRef_of_resolved vars fuel' r (subRef_result_resolved vars fuel t r h),
   substitute_agrees_aux⟩

/-- C8 counterexample: on a tree in which the bound variable 0 occurs
twice, `substitute_ref` resolves both occurrences, while destructive
`substitute` consumes the binding at the first occurrence and panics at
the second (slot already removed) — it does not return the tree
`substitute_ref` returns on the same store state. -/
theorem substitute_counterexample :
    Net.substitute_ref cexStore 2 (.agent 5 [.var 0, .var 0]) =
      some (.agent 5 [.agent 7 [], .agent 7 []]) ∧
    Net.substitute cexStore 2 (.agent 5 [.var 0, .var 0]) = none := by
  constructor
  · simp [Net.substitute_ref, Net.substituteRefList, VarStore.getSlot, cexStore,
      List.lookup]
  · simp [Net.substitute, Net.substituteList, VarStore.getSlot, VarStore.removeSlot,
      cexStore, List.lookup, List.filter]

theorem substitute_ref_substitute_spec_witness :
    Net.substitute_ref cexStore 0 (.agent 7 []) = some (.agent 7 []) ∧
    (∃ r vars2,
      Net.substitute_ref cexStore 1 (.var 0) = some r ∧
      Net.substitute cexStore 1 (.var 0) = some (r, vars2) ∧
      vars2.next = cexStore.next ∧
      (∀ v b, 0 < countVar v (.var 0) → cexStore.getSlot v = some (some b) →
        vars2.getSlot v = none) ∧
      (∀ v, countVar v (.var 0) = 0 → vars2.getSlot v = cexStore.getSlot v) ∧
      (∀ v, cexStore.getSlot v = some none →
        vars2.getSlot v = cexStore.getSlot v)) :=
  ⟨substitute_ref_substitute_spec.1 cexStore 1 0 (.var 0) (.agent 7 [])
      (by simp [Net.substitute_ref, Net.substituteRefList, VarStore.getSlot,
        cexStore, List.lookup]),
   substitute_ref_substitute_spec.2 cexStore 1 (.var 0) (by decide)
      (by intro v
          by_cases h : (0 : VarId) = v <;> simp [countVar, h])
      (by intro v hv
          have hv0 : v = 0 := by
            by_cases h : (0 : VarId) = v
            · exact h.symm
            · simp [countVar, h] at hv
          subst hv0
          decide)
      (by intro v b hbd w
          by_cases h : v = 0
          · subst h
            have : b = Tree.agent 7 [] := by
              simp [cexStore, VarStore.getSlot, List.lookup] at hbd
              exact hbd.symm
            subst this
            simp [countVar, countVarList]
          · have : (v == (0 : Nat)) = false := by simp [h]
            simp [cexStore, VarStore.getSlot, List.lookup, this] at hbd)⟩

theorem lookup_eq_none_iff_keys {β : Type} (l : List (Nat × β)) (a : Nat) :
    l.lookup a = none ↔ a ∉ l.map Prod.fst := by
  induction l with
  | nil => simp [List.lookup]
  | cons kv rest ih =>
    obtain ⟨k, w⟩ := kv
    by_cases h : a = k
    · subst h
      simp [List.lookup]
    · have hb : (a == k) = false := by simp [h]
      simp [List.lookup, hb, ih, h]

theorem scopeRemove_fst (scope : Net.Scope) (id : VarId) :
    (Net.scopeRemove scope id).1 = scope.lookup id := by
  induction scope with
  | nil => rfl
  | cons kv rest ih =>
    obtain ⟨k, w⟩ := kv
    by_cases h : k = id
    · subst h
      simp [Net.scopeRemove, List.lookup]
    · have hb : (id == k) = false := by simp [Ne.symm h]
      simp [Net.scopeRemove, h, List.lookup, hb, ih]

theorem scopeRemove_keys_sublist (scope : Net.Scope) (id : VarId) :
    ((Net.scopeRemove scope id).2.map Prod.fst).Sublist (scope.map Prod.fst) := by
  induction scope with
  | nil => simp [Net.scopeRemove]
  | cons kv rest ih =>
    obtain ⟨k, w⟩ := kv
    by_cases h : k = id
    · subst h
      simp only [Net.scopeRemove, if_pos rfl]
      exact (List.sublist_cons_self _ _)
    · simp only [Net.scopeRemove, if_neg h]
      exact List.Sublist.cons₂ _ ih

theorem scopeRemove_lookup_ne (scope : Net.Scope) (id v : VarId) (h : v ≠ id) :
    (Net.scopeRemove scope id).2.lookup v = scope.lookup v := by
  induction scope with
  | nil => rfl
  | cons kv rest ih =>
    obtain ⟨k, w⟩ := kv
    by_cases hk : k = id
    · subst hk
      have hb : (v == k) = false := by simp [h]
      simp [Net.scopeRemove, List.lookup, hb]
    · by_cases hv : v = k
      · subst hv
        simp [Net.scopeRemove, hk, List.lookup]
      · have hb : (v == k) = false := by simp [hv]
        simp [Net.scopeRemove, hk, List.lookup, hb, ih]

theorem scopeRemove_lookup_self (scope : Net.Scope) (id : VarId)
    (hnd : (scope.map Prod.fst).Nodup) :
    (Net.scopeRemove scope id).2.lookup id = none := by
  induction scope with
  | nil => rfl
  | cons kv rest ih =>
    obtain ⟨k, w⟩ := kv
    simp only [List.map_cons, List.nodup_cons] at hnd
    by_cases h : k = id
    · subst h
      simp only [Net.scopeRemove, if_pos rfl]
      exact (lookup_eq_none_iff_keys rest k).mpr hnd.1
    · have hb : (id == k) = false := by simp [Ne.symm h]
      simp [Net.scopeRemove, h, List.lookup, hb, ih hnd.2]

theorem scopeRemove_absent (scope : Net.Scope) (id : VarId)
    (h : scope.lookup id = none) :
    (Net.scopeRemove scope id).2 = scope := by
  induction scope with
  | nil => rfl
  | cons kv rest ih =>
    obtain ⟨k, w⟩ := kv
    by_cases hk : k = id
    · subst hk
      simp [List.lookup] at h
    · have hb : (id == k) = false := by simp [Ne.symm hk]
      simp only [List.lookup, hb] at h
      simp [Net.scopeRemove, hk, ih h]

/-- 1 when the scope holds a mapping for `v`, else 0. -/
def scopeInd (scope : Net.Scope) (v : VarId) : Nat :=
  if (scope.lookup v).isSome then 1 else 0

/-- Specification of one freshening pass: `ρ` is the total renaming it
realizes; new ids are allocated from `vars.next` upward, distinct template
variables get distinct fresh ids, and the outgoing scope holds exactly the
variables seen an odd number of... seen exactly once counting a pre-existing
scope entry as one occurrence. -/
structure FreshenSpec (vars : VarStore) (scope : Net.Scope) (c : VarId → Nat)
    (vars' : VarStore) (scope' : Net.Scope) (ρ : VarId → VarId) : Prop where
  agree : ∀ v w, scope.lookup v = some w → ρ v = w
  fresh_lo : ∀ v, 0 < c v → scope.lookup v = none → vars.next ≤ ρ v
  fresh_hi : ∀ v, 0 < c v → scope.lookup v = none → ρ v < vars'.next
  inj : ∀ v1 v2, 0 < c v1 → 0 < c v2 → scope.lookup v1 = none →
    scope.lookup v2 = none → ρ v1 = ρ v2 → v1 = v2
  next_mono : vars.next ≤ vars'.next
  scope_eq : ∀ v, scope'.lookup v =
    if scopeInd scope v + c v = 1 then some (ρ v) else none

/-- Scope well-formedness: distinct keys, and every mapped id was already
allocated. -/
def ScopeWF (vars : VarStore) (scope : Net.Scope) : Prop :=
  (scope.map Prod.fst).Nodup ∧ ∀ v w, scope.lookup v = some w → w < vars.next

mutual
theorem renameVars_congr (ρ1 ρ2 : VarId → VarId) :
    ∀ t : Tree, (∀ v, 0 < countVar v t → ρ1 v = ρ2 v) →
      Tree.renameVars ρ1 t = Tree.renameVars ρ2 t
  | .agent id aux, h => by
    simp only [Tree.renameVars]
    rw [renameVarsList_congr ρ1 ρ2 aux
      (fun v hv => h v (by simpa [countVar] using hv))]
  | .var id, h => by
    simp only [Tree.renameVars]
    rw [h id (by simp [countVar])]

theorem renameVarsList_congr (ρ1 ρ2 : VarId → VarId) :
    ∀ ts : List Tree, (∀ v, 0 < countVarList v ts → ρ1 v = ρ2 v) →
      Tree.renameVarsList ρ1 ts = Tree.renameVarsList ρ2 ts
  | [], _ => rfl
  | t :: ts, h => by
    simp only [Tree.renameVarsList]
    rw [renameVars_congr ρ1 ρ2 t
        (fun v hv => h v (by simp [countVarList]; omega)),
      renameVarsList_congr ρ1 ρ2 ts
        (fun v hv => h v (by simp [countVarList]; omega))]
end

/-- Two sequential freshening passes compose into one with the combined
occurrence counts. -/
theorem FreshenSpec.comp
    {vars vars1 vars2 : VarStore} {scope scope1 scope2 : Net.Scope}
    {c1 c2 : VarId → Nat} {ρ1 ρ2 : VarId → VarId}
    (h1 : FreshenSpec vars scope c1 vars1 scope1 ρ1)
    (h2 : FreshenSpec vars1 scope1 c2 vars2 scope2 ρ2)
    (hocc : ∀ v, scopeInd scope v + (c1 v + c2 v) ≤ 2) :
    FreshenSpec vars scope (fun v => c1 v + c2 v) vars2 scope2
      (fun v => if 0 < c1 v then ρ1 v else ρ2 v) := by
  have hind1 : ∀ v, scopeInd scope1 v = if scopeInd scope v + c1 v = 1 then 1 else 0 := by
    intro v
    rw [scopeInd, h1.scope_eq v]
    by_cases h : scopeInd scope v + c1 v = 1 <;> simp [h]
  constructor
  · intro v w hw
    have hiv : scopeInd scope v = 1 := by simp [scopeInd, hw]
    by_cases hc : 0 < c1 v
    · simp only [if_pos hc]
      exact h1.agree v w hw
    · simp only [if_neg hc]
      have hc0 : c1 v = 0 := by omega
      have : scope1.lookup v = some w := by
        rw [h1.scope_eq v, hiv, hc0]
        simp [h1.agree v w hw]
      exact h2.agree v w this
  · intro v hv hnone
    have hiv : scopeInd scope v = 0 := by simp [scopeInd, hnone]
    by_cases hc : 0 < c1 v
    · simp only [if_pos hc]
      exact h1.fresh_lo v hc hnone
    · simp only [if_neg hc]
      have hc0 : c1 v = 0 := by omega
      have hs1 : scope1.lookup v = none := by
        rw [h1.scope_eq v, hiv, hc0]
        simp
      exact le_trans h1.next_mono (h2.fresh_lo v (by omega) hs1)
  · intro v hv hnone
    have hiv : scopeInd scope v = 0 := by simp [scopeInd, hnone]
    by_cases hc : 0 < c1 v
    · simp only [if_pos hc]
      exact lt_of_lt_of_le (h1.fresh_hi v hc hnone) h2.next_mono
    · simp only [if_neg hc]
      have hc0 : c1 v = 0 := by omega
      have hs1 : scope1.lookup v = none := by
        rw [h1.scope_eq v, hiv, hc0]
        simp
      exact h2.fresh_hi v (by omega) hs1
  · intro v1 v2 hv1 hv2 hn1 hn2 heq
    have hi1 : scopeInd scope v1 = 0 := by simp [scopeInd, hn1]
    have hi2 : scopeInd scope v2 = 0 := by simp [scopeInd, hn2]
    by_cases hc1 : 0 < c1 v1 <;> by_cases hc2 : 0 < c1 v2
    · simp only [if_pos hc1, if_pos hc2] at heq
      exact h1.inj v1 v2 hc1 hc2 hn1 hn2 heq
    · exfalso
      have heq2 : ρ1 v1 = ρ2 v2 := by
        rw [if_pos hc1, if_neg hc2] at heq
        exact heq
      have hs2 : scope1.lookup v2 = none := by
        rw [h1.scope_eq v2, hi2]
        simp
        omega
      have hhi := h1.fresh_hi v1 hc1 hn1
      have hlo := h2.fresh_lo v2 (by omega) hs2
      rw [heq2] at hhi
      exact absurd hhi (not_lt.mpr hlo)
    · exfalso
      have heq2 : ρ2 v1 = ρ1 v2 := by
        rw [if_neg hc1, if_pos hc2] at heq
        exact heq
      have hs1 : scope1.lookup v1 = none := by
        rw [h1.scope_eq v1, hi1]
        simp
        omega
      have hhi := h1.fresh_hi v2 hc2 hn2
      have hlo := h2.fresh_lo v1 (by omega) hs1
      rw [← heq2] at hhi
      exact absurd hhi (not_lt.mpr hlo)
    · simp only [if_neg hc1, if_neg hc2] at heq
      have hs1 : scope1.lookup v1 = none := by
        rw [h1.scope_eq v1, hi1]
        simp
        omega
      have hs2 : scope1.lookup v2 = none := by
        rw [h1.scope_eq v2, hi2]
        simp
        omega
      exact h2.inj v1 v2 (by omega) (by omega) hs1 hs2 heq
  · exact le_trans h1.next_mono h2.next_mono
  · intro v
    rw [h2.scope_eq v, hind1 v]
    have hb := hocc v
    by_cases hI : scopeInd scope v + c1 v = 1
    · simp only [if_pos hI]
      by_cases hb0 : c2 v = 0
      · have e1 : 1 + c2 v = 1 := by omega
        have e2 : scopeInd scope v + (c1 v + c2 v) = 1 := by omega
        simp only [if_pos e1, if_pos e2]
        by_cases hc : 0 < c1 v
        · simp only [if_pos hc]
          have hs1 : scope1.lookup v = some (ρ1 v) := by
            rw [h1.scope_eq v, if_pos hI]
          rw [h2.agree v (ρ1 v) hs1]
        · simp only [if_neg hc]
      · have e1 : ¬(1 + c2 v = 1) := by omega
        have e2 : ¬(scopeInd scope v + (c1 v + c2 v) = 1) := by omega
        simp only [if_neg e1, if_neg e2]
    · simp only [if_neg hI]
      by_cases hIa : scopeInd scope v + c1 v = 0
      · by_cases hb1 : c2 v = 1
        · have e1 : 0 + c2 v = 1 := by omega
          have e2 : scopeInd scope v + (c1 v + c2 v) = 1 := by omega
          have hc : ¬0 < c1 v := by omega
          simp only [if_pos e1, if_pos e2, if_neg hc]
        · have e1 : ¬(0 + c2 v = 1) := by omega
          have e2 : ¬(scopeInd scope v + (c1 v + c2 v) = 1) := by omega
          simp only [if_neg e1, if_neg e2]
      · have hb2 : c2 v = 0 := by omega
        have e1 : ¬(0 + c2 v = 1) := by omega
        have e2 : ¬(scopeInd scope v + (c1 v + c2 v) = 1) := by omega
        simp only [if_neg e1, if_neg e2]

/-- Replacing the count function by a pointwise-equal one preserves a
`FreshenSpec`. -/
theorem FreshenSpec.congr_c
    {vars vars' : VarStore} {scope scope' : Net.Scope}
    {c c' : VarId → Nat} {ρ : VarId → VarId}
    (h : FreshenSpec vars scope c vars' scope' ρ) (hc : ∀ v, c' v = c v) :
    FreshenSpec vars scope c' vars' scope' ρ := by
  constructor
  · exact h.agree
  · intro v hv; exact h.fresh_lo v (by rw [← hc v]; exact hv)
  · intro v hv; exact h.fresh_hi v (by rw [← hc v]; exact hv)
  · intro v1 v2 h1 h2
    exact h.inj v1 v2 (by rw [← hc v1]; exact h1) (by rw [← hc v2]; exact h2)
  · exact h.next_mono
  · intro v
    rw [h.scope_eq v, hc v]

/-- The central freshening lemma: one `freshenList` pass over templates in
which (counting a pre-existing scope entry as one occurrence) no variable
occurs more than twice realizes a single variable renaming `ρ`, allocating
fresh ids for the variables it meets first. -/
theorem freshenList_spec :
    ∀ (vars : VarStore) (scope : Net.Scope) (ts : List Tree),
      ScopeWF vars scope →
      (∀ v, scopeInd scope v + countVarList v ts ≤ 2) →
      ∃ ρ,
        (Net.freshenList vars scope ts).1 = Tree.renameVarsList ρ ts ∧
        FreshenSpec vars scope (fun v => countVarList v ts)
          (Net.freshenList vars scope ts).2.1
          (Net.freshenList vars scope ts).2.2 ρ ∧
        ScopeWF (Net.freshenList vars scope ts).2.1
          (Net.freshenList vars scope ts).2.2 := by
  refine Net.freshenList.induct
    (fun vars scope t => ScopeWF vars scope →
      (∀ v, scopeInd scope v + countVar v t ≤ 2) →
      ∃ ρ,
        (Net.freshen vars scope t).1 = Tree.renameVars ρ t ∧
        FreshenSpec vars scope (fun v => countVar v t)
          (Net.freshen vars scope t).2.1 (Net.freshen vars scope t).2.2 ρ ∧
        ScopeWF (Net.freshen vars scope t).2.1 (Net.freshen vars scope t).2.2)
    (fun vars scope ts => ScopeWF vars scope →
      (∀ v, scopeInd scope v + countVarList v ts ≤ 2) →
      ∃ ρ,
        (Net.freshenList vars scope ts).1 = Tree.renameVarsList ρ ts ∧
        FreshenSpec vars scope (fun v => countVarList v ts)
          (Net.freshenList vars scope ts).2.1
          (Net.freshenList vars scope ts).2.2 ρ ∧
        ScopeWF (Net.freshenList vars scope ts).2.1
          (Net.freshenList vars scope ts).2.2)
    ?_ ?_ ?_ ?_ ?_
  · -- agent node: defer to the aux list
    intro vars scope a aux aux' vars' scope' heq ih hwf hocc
    obtain ⟨ρ, hts, hspec, hwf'⟩ :=
      ih hwf (fun v => by simpa [countVar] using hocc v)
    have hfr : Net.freshen vars scope (.agent a aux) = (.agent a aux', vars', scope') := by
      simp [Net.freshen, heq]
    rw [heq] at hts hspec hwf'
    rw [hfr]
    refine ⟨ρ, ?_, ?_, hwf'⟩
    · simp only [Tree.renameVars]
      simpa using congrArg (Tree.agent a) hts
    · exact hspec.congr_c (fun v => by simp [countVar])
  · -- variable with an existing scope mapping: consume it
    intro vars scope a e scope' hrem hwf hocc
    have hla : scope.lookup a = some e := by
      rw [← scopeRemove_fst scope a, hrem]
    have hsnd : (Net.scopeRemove scope a).2 = scope' := congrArg Prod.snd hrem
    have hfr : Net.freshen vars scope (.var a) = (.var e, vars, scope') := by
      simp [Net.freshen, hrem]
    rw [hfr]
    have hcv : ∀ v, countVar v (.var a) = if a = v then 1 else 0 := by
      intro v; simp [countVar]
    refine ⟨fun v => (scope.lookup v).getD v, ?_, ?_, ?_⟩
    · simp [Tree.renameVars, hla]
    · constructor
      · intro v w hw; simp [hw]
      · intro v hv hnone
        exfalso
        have hva : a = v := by
          by_cases h : a = v
          · exact h
          · rw [hcv v, if_neg h] at hv; cases hv
        rw [← hva, hla] at hnone
        cases hnone
      · intro v hv hnone
        exfalso
        have hva : a = v := by
          by_cases h : a = v
          · exact h
          · rw [hcv v, if_neg h] at hv; cases hv
        rw [← hva, hla] at hnone
        cases hnone
      · intro v1 v2 h1 h2 hn1 hn2 _
        exfalso
        have hva : a = v1 := by
          by_cases h : a = v1
          · exact h
          · rw [hcv v1, if_neg h] at h1; cases h1
        rw [← hva, hla] at hn1
        cases hn1
      · exact le_refl _
      · intro v
        by_cases hva : v = a
        · subst hva
          rw [← hsnd, scopeRemove_lookup_self scope v hwf.1]
          have : scopeInd scope v + countVar v (.var v) = 2 := by
            rw [hcv v, if_pos rfl, scopeInd, hla]
            simp
          rw [this]
          simp
        · rw [← hsnd, scopeRemove_lookup_ne scope a v hva]
          have hc0 : countVar v (.var a) = 0 := by
            rw [hcv v, if_neg (fun h => hva h.symm)]
          rw [hc0, Nat.add_zero]
          cases hsl : scope.lookup v with
          | none => simp [scopeInd, hsl]
          | some w => simp [scopeInd, hsl]
    · constructor
      · rw [← hsnd]
        exact hwf.1.sublist (scopeRemove_keys_sublist scope a)
      · intro v w hw
        rw [← hsnd] at hw
        by_cases hva : v = a
        · subst hva
          rw [scopeRemove_lookup_self scope v hwf.1] at hw
          cases hw
        · rw [scopeRemove_lookup_ne scope a v hva] at hw
          exact hwf.2 v w hw
  · -- variable not in scope: allocate a fresh id and record it
    intro vars scope a scope' hrem v vars' hnew hwf hocc
    have hla : scope.lookup a = none := by
      rw [← scopeRemove_fst scope a, hrem]
    have hsnd : (Net.scopeRemove scope a).2 = scope' := congrArg Prod.snd hrem
    have hscope' : scope' = scope := by
      rw [← hsnd]
      exact scopeRemove_absent scope a hla
    have hv : v = vars.next := by
      have := congrArg Prod.fst hnew
      simpa [VarStore.newVar] using this.symm
    have hvnext : vars'.next = vars.next + 1 := by
      have := congrArg (fun p => (Prod.snd p).next) hnew
      simpa [VarStore.newVar] using this.symm
    have hfr : Net.freshen vars scope (.var a) = (.var v, vars', (a, v) :: scope) := by
      simp [Net.freshen, hrem, hnew, hscope']
    rw [hfr]
    have hcv : ∀ w, countVar w (.var a) = if a = w then 1 else 0 := by
      intro w; simp [countVar]
    refine ⟨fun w => if w = a then v else (scope.lookup w).getD w, ?_, ?_, ?_⟩
    · simp [Tree.renameVars]
    · constructor
      · intro w u hu
        have hwa : w ≠ a := by
          intro h
          rw [h, hla] at hu
          cases hu
        simp [hwa, hu]
      · intro w hw _
        have hwa : a = w := by
          by_cases h : a = w
          · exact h
          · rw [hcv w, if_neg h] at hw; cases hw
        rw [← hwa]
        simp [hv]
      · intro w hw _
        have hwa : a = w := by
          by_cases h : a = w
          · exact h
          · rw [hcv w, if_neg h] at hw; cases hw
        rw [← hwa]
        simp [hv, hvnext]
      · intro w1 w2 hw1 hw2 _ _ _
        have h1 : a = w1 := by
          by_cases h : a = w1
          · exact h
          · rw [hcv w1, if_neg h] at hw1; cases hw1
        have h2 : a = w2 := by
          by_cases h : a = w2
          · exact h
          · rw [hcv w2, if_neg h] at hw2; cases hw2
        rw [← h1, ← h2]
      · rw [hvnext]; omega
      · intro w
        by_cases hwa : w = a
        · subst hwa
          have hbeq : (w == w) = true := by simp
          simp only [List.lookup, hbeq]
          rw [hcv w, if_pos rfl, scopeInd, hla]
          simp
        · have hbeq : (w == a) = false := by simp [hwa]
          simp only [List.lookup, hbeq]
          have hc0 : countVar w (.var a) = 0 := by
            rw [hcv w, if_neg (fun h => hwa h.symm)]
          rw [hc0, Nat.add_zero]
          cases hsl : scope.lookup w with
          | none => simp [scopeInd, hsl]
          | some u => simp [scopeInd, hsl, hwa]
    · constructor
      · simp only [List.map_cons, List.nodup_cons]
        exact ⟨(lookup_eq_none_iff_keys scope a).mp hla, hwf.1⟩
      · intro w u hu
        show u < vars'.next
        by_cases hwa : w = a
        · subst hwa
          have hbeq : (w == w) = true := by simp
          simp only [List.lookup, hbeq] at hu
          have huv : v = u := by injection hu
          rw [← huv, hv, hvnext]
          exact Nat.lt_succ_self _
        · have hbeq : (w == a) = false := by simp [hwa]
          simp only [List.lookup, hbeq] at hu
          have := hwf.2 w u hu
          rw [hvnext]
          exact Nat.lt_succ_of_lt this
  · -- empty template list
    intro vars scope hwf _
    have hfr : Net.freshenList vars scope [] = ([], vars, scope) := by
      simp [Net.freshenList]
    rw [hfr]
    refine ⟨fun w => (scope.lookup w).getD w, by simp [Tree.renameVarsList], ?_, hwf⟩
    constructor
    · intro v w hw; simp [hw]
    · intro v hv; simp [countVarList] at hv
    · intro v hv; simp [countVarList] at hv
    · intro v1 v2 h1 _ _ _ _; simp [countVarList] at h1
    · exact le_refl _
    · intro v
      rw [show countVarList v [] = 0 from by simp [countVarList], Nat.add_zero]
      cases hsl : scope.lookup v with
      | none => simp [scopeInd, hsl]
      | some w => simp [scopeInd, hsl]
  · -- template list cons: compose the head pass with the tail pass
    intro vars scope t ts t' vars' scope' heq1 aux' vars1 scope1 heq2 ih1 ih2 hwf hocc
    obtain ⟨ρ1, htree1, hspec1, hwf1⟩ :=
      ih1 hwf (fun v => by
        have := hocc v
        simp only [countVarList] at this
        omega)
    rw [heq1] at htree1 hspec1 hwf1
    have htree1' : t' = Tree.renameVars ρ1 t := htree1
    have hspec1' : FreshenSpec vars scope (fun v => countVar v t) vars' scope' ρ1 :=
      hspec1
    have hwf1' : ScopeWF vars' scope' := hwf1
    have hind : ∀ v, scopeInd scope' v =
        if scopeInd scope v + countVar v t = 1 then 1 else 0 := by
      intro v
      rw [scopeInd, hspec1'.scope_eq v]
      by_cases h : scopeInd scope v + countVar v t = 1 <;> simp [h]
    obtain ⟨ρ2, htree2, hspec2, hwf2⟩ :=
      ih2 hwf1' (fun v => by
        have hocv := hocc v
        simp only [countVarList] at hocv
        rw [hind v]
        by_cases h : scopeInd scope v + countVar v t = 1
        · rw [if_pos h]; omega
        · rw [if_neg h]; omega)
    rw [heq2] at htree2 hspec2 hwf2
    have htree2' : aux' = Tree.renameVarsList ρ2 ts := htree2
    have hspec2' : FreshenSpec vars' scope' (fun v => countVarList v ts) vars1 scope1 ρ2 :=
      hspec2
    have hwf2' : ScopeWF vars1 scope1 := hwf2
    have hfr : Net.freshenList vars scope (t :: ts) = (t' :: aux', vars1, scope1) := by
      simp [Net.freshenList, heq1, heq2]
    rw [hfr]
    have hcomp := FreshenSpec.comp hspec1' hspec2' (fun v => by
      have := hocc v
      simp only [countVarList] at this
      omega)
    refine ⟨fun v => if 0 < countVar v t then ρ1 v else ρ2 v, ?_, ?_, hwf2'⟩
    · simp only [Tree.renameVarsList]
      congr 1
      · rw [htree1']
        exact (renameVars_congr _ _ t (fun v hv => by simp [hv])).symm
      · rw [htree2']
        refine renameVarsList_congr ρ2 _ ts ?_
        intro v hv
        by_cases hct : 0 < countVar v t
        · simp only [if_pos hct]
          have hocv := hocc v
          simp only [countVarList] at hocv
          have hct1 : scopeInd scope v + countVar v t = 1 := by omega
          have hs' : scope'.lookup v = some (ρ1 v) := by
            rw [hspec1'.scope_eq v, if_pos hct1]
          exact hspec2'.agree v (ρ1 v) hs'
        · simp only [if_neg hct]
    · exact hcomp.congr_c (fun v => by simp [countVarList])

theorem applyStep_eq (acc : Net × Net.Scope) (p : Tree × Tree) :
    Net.applyStep acc p =
      (Net.link { acc.1 with vars := (Net.freshen acc.1.vars acc.2 p.1).2.1 }
        (Net.freshen acc.1.vars acc.2 p.1).1 p.2,
       (Net.freshen acc.1.vars acc.2 p.1).2.2) := by
  rcases h : Net.freshen acc.1.vars acc.2 p.1 with ⟨i, vars', scope'⟩
  simp [Net.applyStep, h]

theorem freshenList_cons_eq (vars : VarStore) (scope : Net.Scope) (t : Tree)
    (ts : List Tree) :
    Net.freshenList vars scope (t :: ts) =
      ((Net.freshen vars scope t).1 ::
        (Net.freshenList (Net.freshen vars scope t).2.1
          (Net.freshen vars scope t).2.2 ts).1,
       (Net.freshenList (Net.freshen vars scope t).2.1
          (Net.freshen vars scope t).2.2 ts).2.1,
       (Net.freshenList (Net.freshen vars scope t).2.1
          (Net.freshen vars scope t).2.2 ts).2.2) := by
  rcases h1 : Net.freshen vars scope t with ⟨t', v1, s1⟩
  rcases h2 : Net.freshenList v1 s1 ts with ⟨ts', v2, s2⟩
  simp [Net.freshenList, h1, h2]

/-- The `apply_rule` fold expressed through `freshenList`: the freshened
templates are pushed in order, each paired with its actual tree. -/
theorem applyFold_eq :
    ∀ (pairs : List (Tree × Tree)) (n : Net) (scope : Net.Scope),
      pairs.foldl Net.applyStep (n, scope) =
        ({ n with
            vars := (Net.freshenList n.vars scope (pairs.map Prod.fst)).2.1,
            interactions := n.interactions ++
              ((Net.freshenList n.vars scope (pairs.map Prod.fst)).1.zip
                (pairs.map Prod.snd)) },
         (Net.freshenList n.vars scope (pairs.map Prod.fst)).2.2) := by
  intro pairs
  induction pairs with
  | nil =>
    intro n scope
    have h : Net.freshenList n.vars scope [] = ([], n.vars, scope) := by
      simp [Net.freshenList]
    simp [h]
  | cons p rest ih =>
    intro n scope
    rw [List.foldl_cons, applyStep_eq, ih]
    rw [List.map_cons, List.map_cons, freshenList_cons_eq]
    simp [Net.link, List.append_assoc]

theorem zip_renamed (ρ : VarId → VarId) :
    ∀ pairs : List (Tree × Tree),
      (Tree.renameVarsList ρ (pairs.map Prod.fst)).zip (pairs.map Prod.snd) =
        pairs.map fun p => (Tree.renameVars ρ p.1, p.2) := by
  intro pairs
  induction pairs with
  | nil => simp [Tree.renameVarsList]
  | cons p rest ih => simp [Tree.renameVarsList, ih]

/-- C1 (amended): every call to `apply_rule` freshens each rule-side
template port (left side first, then right side) and pushes it with its
actual tree as a new pending interaction, leaving the rest of the net
untouched; freshening realizes a single variable renaming `ρ` whose images
are newly allocated ids, and distinct template variables receive distinct
fresh ids — provided no template variable occurs more than twice across the
zipped ports of this one application (occurrences beyond the second get a
second fresh id, because the scope consumes a mapping when it is used; see
the counterexample). -/
theorem apply_rule_spec (n : Net) (rule : InteractionRule) (left right : List Tree)
    (hocc : ∀ v, countVarList v
      ((rule.left_ports.zip left ++ rule.right_ports.zip right).map Prod.fst) ≤ 2) :
    ∃ ρ : VarId → VarId,
      (Net.apply_rule n rule left right).interactions =
        n.interactions ++
          ((rule.left_ports.zip left ++ rule.right_ports.zip right).map
            fun p => (Tree.renameVars ρ p.1, p.2)) ∧
      (Net.apply_rule n rule left right).stuck = n.stuck ∧
      (Net.apply_rule n rule left right).system = n.system ∧
      (∀ v, 0 < countVarList v
          ((rule.left_ports.zip left ++ rule.right_ports.zip right).map Prod.fst) →
        n.vars.next ≤ ρ v ∧
        ρ v < (Net.apply_rule n rule left right).vars.next) ∧
      (∀ v1 v2,
        0 < countVarList v1
          ((rule.left_ports.zip left ++ rule.right_ports.zip right).map Prod.fst) →
        0 < countVarList v2
          ((rule.left_ports.zip left ++ rule.right_ports.zip right).map Prod.fst) →
        ρ v1 = ρ v2 → v1 = v2) := by
  have hwf : ScopeWF n.vars [] := ⟨List.nodup_nil, by intro v w hw; cases hw⟩
  obtain ⟨ρ, htree, hspec, _⟩ :=
    freshenList_spec n.vars []
      ((rule.left_ports.zip left ++ rule.right_ports.zip right).map Prod.fst) hwf
      (fun v => by simpa [scopeInd, List.lookup] using hocc v)
  have hfold := applyFold_eq (rule.left_ports.zip left ++ rule.right_ports.zip right) n []
  have happ : Net.apply_rule n rule left right =
      { n with
        vars := (Net.freshenList n.vars []
          ((rule.left_ports.zip left ++ rule.right_ports.zip right).map Prod.fst)).2.1,
        interactions := n.interactions ++
          ((Net.freshenList n.vars []
            ((rule.left_ports.zip left ++ rule.right_ports.zip right).map Prod.fst)).1.zip
            ((rule.left_ports.zip left ++ rule.right_ports.zip right).map Prod.snd)) } := by
    rw [Net.apply_rule, hfold]
  refine ⟨ρ, ?_, ?_, ?_, ?_, ?_⟩
  · rw [happ]
    rw [htree, zip_renamed]
  · rw [happ]
  · rw [happ]
  · intro v hv
    constructor
    · exact hspec.fresh_lo v hv rfl
    · rw [happ]
      exact hspec.fresh_hi v hv rfl
  · intro v1 v2 h1 h2 heq
    exact hspec.inj v1 v2 h1 h2 rfl rfl heq

/-- C1 counterexample: with a template in which the same variable occurs
three times, the first two occurrences share one fresh id but the third
receives another (the scope mapping is consumed on use), so no single
renaming of template variables produces the pushed tree — refuting "all
occurrences of the same template variable map to the same fresh id" as a
property of every `apply_rule` call. -/
theorem apply_rule_counterexample :
    (Net.apply_rule ⟨[], ⟨0, []⟩, [], ⟨[]⟩⟩
        ⟨[.agent 0 [.var 5, .var 5, .var 5]], []⟩ [.agent 1 []] []).interactions =
      [(.agent 0 [.var 0, .var 0, .var 1], .agent 1 [])] ∧
    ¬ ∃ ρ : VarId → VarId,
        Tree.agent 0 [.var 0, .var 0, .var 1] =
          Tree.renameVars ρ (.agent 0 [.var 5, .var 5, .var 5]) := by
  constructor
  · simp [Net.apply_rule, Net.applyStep, Net.freshen, Net.freshenList,
      Net.scopeRemove, Net.link, VarStore.newVar]
  · rintro ⟨ρ, h⟩
    simp only [Tree.renameVars, Tree.renameVarsList] at h
    injection h with hid haux
    injection haux with k1 haux2
    injection haux2 with k2 haux3
    injection haux3 with k3 _
    injection k1 with i1
    injection k3 with i3
    exact absurd (i1.trans i3.symm) (by decide)

theorem apply_rule_spec_witness :
    ∃ ρ : VarId → VarId,
      (Net.apply_rule ⟨[], ⟨0, []⟩, [], ⟨[]⟩⟩
          ⟨[.agent 0 [.var 5, .var 5]], []⟩ [.agent 1 []] []).interactions =
        ([] : List (Tree × Tree)) ++
          ((([Tree.agent 0 [.var 5, .var 5]].zip [Tree.agent 1 []]) ++
            (([] : List Tree).zip ([] : List Tree))).map
            fun p => (Tree.renameVars ρ p.1, p.2)) ∧
      (Net.apply_rule ⟨[], ⟨0, []⟩, [], ⟨[]⟩⟩
          ⟨[.agent 0 [.var 5, .var 5]], []⟩ [.agent 1 []] []).stuck = [] ∧
      (Net.apply_rule ⟨[], ⟨0, []⟩, [], ⟨[]⟩⟩
          ⟨[.agent 0 [.var 5, .var 5]], []⟩ [.agent 1 []] []).system = ⟨[]⟩ ∧
      (∀ v, 0 < countVarList v
          ((([Tree.agent 0 [.var 5, .var 5]].zip [Tree.agent 1 []]) ++
            (([] : List Tree).zip ([] : List Tree))).map Prod.fst) →
        (0 : Nat) ≤ ρ v ∧
        ρ v < (Net.apply_rule ⟨[], ⟨0, []⟩, [], ⟨[]⟩⟩
          ⟨[.agent 0 [.var 5, .var 5]], []⟩ [.agent 1 []] []).vars.next) ∧
      (∀ v1 v2,
        0 < countVarList v1
          ((([Tree.agent 0 [.var 5, .var 5]].zip [Tree.agent 1 []]) ++
            (([] : List Tree).zip ([] : List Tree))).map Prod.fst) →
        0 < countVarList v2
          ((([Tree.agent 0 [.var 5, .var 5]].zip [Tree.agent 1 []]) ++
            (([] : List Tree).zip ([] : List Tree))).map Prod.fst) →
        ρ v1 = ρ v2 → v1 = v2) :=
  apply_rule_spec ⟨[], ⟨0, []⟩, [], ⟨[]⟩⟩ ⟨[.agent 0 [.var 5, .var 5]], []⟩
    [.agent 1 []] []
    (by intro v
        by_cases h : (5 : VarId) = v <;>
          simp [countVar, countVarList, h])

/-- Every pair held in a net's stuck set has both components in Agent form. -/
def StuckAgents (n : Net) : Prop :=
  ∀ pr ∈ n.stuck,
    (Tree.agent_id pr.1).isSome = true ∧ (Tree.agent_id pr.2).isSome = true

theorem apply_rule_frame (n : Net) (r : InteractionRule) (l rt : List Tree) :
    (Net.apply_rule n r l rt).stuck = n.stuck ∧
    (Net.apply_rule n r l rt).system = n.system := by
  have h := applyFold_eq (r.left_ports.zip l ++ r.right_ports.zip rt) n []
  rw [Net.apply_rule, h]
  exact ⟨rfl, rfl⟩

theorem interactVar_stuck (n : Net) (id : VarId) (t : Tree) (n' : Net)
    (h : Net.interactVar n id t = some n') : n'.stuck = n.stuck := by
  simp only [Net.interactVar] at h
  cases hsl : n.vars.getSlot id with
  | none => rw [hsl] at h; cases h
  | some o =>
    cases o with
    | none =>
      rw [hsl] at h
      have := Option.some.inj h
      rw [← this]
    | some b =>
      rw [hsl] at h
      have := Option.some.inj h
      rw [← this]
      rfl

theorem interact_preserves_stuckAgents (n n' : Net) (a b : Tree)
    (hS : StuckAgents n) (h : Net.interact n a b = some n') : StuckAgents n' := by
  cases a with
  | var va =>
    cases b with
    | var vb =>
      have hst : n'.stuck = n.stuck := interactVar_stuck n vb (.var va) n' h
      intro pr hpr
      exact hS pr (by rw [← hst]; exact hpr)
    | agent i2 x2 =>
      have hst : n'.stuck = n.stuck := interactVar_stuck n va (.agent i2 x2) n' h
      intro pr hpr
      exact hS pr (by rw [← hst]; exact hpr)
  | agent i1 x1 =>
    cases b with
    | var vb =>
      have hst : n'.stuck = n.stuck := interactVar_stuck n vb (.agent i1 x1) n' h
      intro pr hpr
      exact hS pr (by rw [← hst]; exact hpr)
    | agent i2 x2 =>
      simp only [Net.interact] at h
      cases hr1 : n.system.getRule i1 i2 with
      | some r =>
        rw [hr1] at h
        have := Option.some.inj h
        rw [← this]
        intro pr hpr
        rw [(apply_rule_frame n r x1 x2).1] at hpr
        exact hS pr hpr
      | none =>
        rw [hr1] at h
        cases hr2 : n.system.getRule i2 i1 with
        | some r =>
          rw [hr2] at h
          have := Option.some.inj h
          rw [← this]
          intro pr hpr
          rw [(apply_rule_frame n r x2 x1).1] at hpr
          exact hS pr hpr
        | none =>
          rw [hr2] at h
          have := Option.some.inj h
          rw [← this]
          intro pr hpr
          simp only [List.mem_append, List.mem_singleton] at hpr
          rcases hpr with hpr | hpr
          · exact hS pr hpr
          · rw [hpr]
            exact ⟨rfl, rfl⟩

theorem normal_preserves_stuckAgents :
    ∀ (fuel : Nat) (n n' : Net), StuckAgents n →
      Net.normal fuel n = some n' → StuckAgents n' := by
  intro fuel
  induction fuel with
  | zero =>
    intro n n' hS h
    simp only [Net.normal] at h
    by_cases he : n.interactions = []
    · rw [if_pos he] at h
      have := Option.some.inj h
      rw [← this]
      exact hS
    · rw [if_neg he] at h
      cases h
  | succ f ih =>
    intro n n' hS h
    simp only [Net.normal] at h
    cases hp : vecPop n.interactions with
    | none =>
      rw [hp] at h
      have := Option.some.inj h
      rw [← this]
      exact hS
    | some pr =>
      obtain ⟨⟨a, b⟩, rest⟩ := pr
      rw [hp] at h
      dsimp only at h
      cases hi : Net.interact { n with interactions := rest } a b with
      | none => rw [hi] at h; cases h
      | some n1 =>
        rw [hi] at h
        have hS1 : StuckAgents { n with interactions := rest } := hS
        exact ih n1 n' (interact_preserves_stuckAgents _ n1 a b hS1 hi) h

theorem annotate_preserves_stuckAgents (aid : AgentId) (n : Net)
    (hS : StuckAgents n) : StuckAgents (annotate_interactions aid n) := by
  rw [annotate_interactions]
  have hgen : ∀ (l : List (Tree × Tree)) (n0 : Net), StuckAgents n0 →
      StuckAgents (l.foldl
        (fun n ab =>
          let (v, n') := Net.new_var n
          { n' with interactions := n'.interactions ++
              [(ab.1, Tree.agent aid [Tree.var v]),
               (ab.2, Tree.agent aid [Tree.var v])] }) n0) := by
    intro l
    induction l with
    | nil => intro n0 h; exact h
    | cons ab rest ih =>
      intro n0 h
      rw [List.foldl_cons]
      exact ih _ h
  exact hgen n.interactions { n with interactions := [] } hS

theorem tcStuckStep_preserves_stuckAgents (p : Program) (n : Net)
    (gc : List (Option Tree)) (a b : Tree) (n' : Net) (gc' : List (Option Tree))
    (hS : StuckAgents n)
    (h : tcStuckStep p n gc a b = some (.ok (n', gc'))) : StuckAgents n' := by
  simp only [tcStuckStep] at h
  cases hb : b.agent_id with
  | none => rw [hb] at h; cases h
  | some bid =>
    simp only [hb] at h
    cases ha : (if bid = p.ann_id then (b, a) else (a, b)).1.agent_id with
    | none => simp only [ha] at h; cases h
    | some aid =>
      simp only [ha] at h
      by_cases hann : aid = p.ann_id
      · rw [if_pos hann] at h
        cases hab : (if bid = p.ann_id then (b, a) else (a, b)).1 with
        | var _ => simp only [hab] at h; cases h
        | agent ai aux =>
          simp only [hab] at h
          cases hv1 : vecPop aux with
          | none => simp only [hv1] at h; cases h
          | some pr1 =>
            obtain ⟨w, aux1⟩ := pr1
            simp only [hv1] at h
            cases hv2 : vecPop aux1 with
            | none => simp only [hv2] at h; cases h
            | some pr2 =>
              obtain ⟨payload, rest2⟩ := pr2
              simp only [hv2] at h
              cases hi : Net.interact n payload
                  (if bid = p.ann_id then (b, a) else (a, b)).2 with
              | none => simp only [hi] at h; cases h
              | some n1 =>
                simp only [hi] at h
                have hinj := Option.some.inj h
                injection hinj with hp2
                have hn : n1 = n' := congrArg Prod.fst hp2
                rw [← hn]
                exact interact_preserves_stuckAgents n n1 payload _ hS hi
      · rw [if_neg hann] at h
        cases hb2 : (if bid = p.ann_id then (b, a) else (a, b)).2.agent_id with
        | none => simp only [hb2] at h; cases h
        | some bid2 =>
          simp only [hb2] at h
          cases hl1 : lookup_agent p.agent_scope aid with
          | none =>
            simp only [hl1] at h
            cases h
          | some na =>
            simp only [hl1] at h
            cases hl2 : lookup_agent p.agent_scope bid2 with
            | none => simp only [hl2] at h; cases h
            | some nb =>
              simp only [hl2] at h
              simp at h

theorem tcLoop_preserves_stuckAgents (p : Program) :
    ∀ (fuel : Nat) (n : Net) (gc : List (Option Tree)) (n' : Net)
      (gc' : List (Option Tree)),
      StuckAgents n →
      tcLoop p fuel n gc = some (.ok (n', gc')) → StuckAgents n' := by
  intro fuel
  induction fuel with
  | zero => intro n gc n' gc' _ h; simp [tcLoop] at h
  | succ f ih =>
    intro n gc n' gc' hS h
    simp only [tcLoop] at h
    cases hp : vecPop n.interactions with
    | some pr =>
      obtain ⟨⟨a, b⟩, rest⟩ := pr
      simp only [hp] at h
      cases hi : Net.interact { n with interactions := rest } a b with
      | none => simp only [hi] at h; cases h
      | some n1 =>
        simp only [hi] at h
        have hS1 : StuckAgents { n with interactions := rest } := hS
        exact ih n1 gc n' gc'
          (interact_preserves_stuckAgents { n with interactions := rest } n1 a b hS1 hi) h
    | none =>
      simp only [hp] at h
      cases hs : vecPop n.stuck with
      | none =>
        simp only [hs] at h
        have hinj := Option.some.inj h
        injection hinj with h2
        have hn : n = n' := congrArg Prod.fst h2
        rw [← hn]
        exact hS
      | some pr =>
        obtain ⟨⟨a, b⟩, rest⟩ := pr
        simp only [hs] at h
        have hrest : StuckAgents { n with stuck := rest } := by
          intro q hq
          refine hS q ?_
          have hdec : n.stuck = rest ++ [(a, b)] := (vecPop_eq_some_iff _ _ _).mp hs
          rw [hdec]
          exact List.mem_append_left _ hq
        cases ht : tcStuckStep p { n with stuck := rest } gc a b with
        | none => simp only [ht] at h; cases h
        | some r =>
          simp only [ht] at h
          cases r with
          | error e => simp at h
          | ok pr2 =>
            obtain ⟨n1, gc1⟩ := pr2
            exact ih n1 gc1 n' gc'
              (tcStuckStep_preserves_stuckAgents p _ gc a b n1 gc1 hrest ht) h

/-- C9: every pair held in a Net's stuck set has both components of Agent
form: apply_rule never touches the stuck set, interact appends to it only in
its Agent/Agent branch (preserving the predicate), normal, the typecheck
annotation pass, the stuck-pair step and the typecheck loop all preserve it,
and on any stuck pair popped from a net satisfying the invariant both
agent-kind lookups succeed. -/
theorem stuck_pairs_are_agents (p : Program) :
    (∀ n r l rt, (Net.apply_rule n r l rt).stuck = n.stuck) ∧
    (∀ n a b n', StuckAgents n → Net.interact n a b = some n' → StuckAgents n') ∧
    (∀ fuel n n', StuckAgents n → Net.normal fuel n = some n' → StuckAgents n') ∧
    (∀ aid n, StuckAgents n → StuckAgents (annotate_interactions aid n)) ∧
    (∀ n gc a b n' gc', StuckAgents n →
      tcStuckStep p n gc a b = some (.ok (n', gc')) → StuckAgents n') ∧
    (∀ fuel n gc n' gc', StuckAgents n →
      tcLoop p fuel n gc = some (.ok (n', gc')) → StuckAgents n') ∧
    (∀ n (a b : Tree) rest, StuckAgents n → vecPop n.stuck = some ((a, b), rest) →
      (Tree.agent_id a).isSome = true ∧ (Tree.agent_id b).isSome = true) :=
  ⟨fun n r l rt => (apply_rule_frame n r l rt).1,
   fun n a b n' => interact_preserves_stuckAgents n n' a b,
   fun fuel n n' => normal_preserves_stuckAgents fuel n n',
   fun aid n => annotate_preserves_stuckAgents aid n,
   fun n gc a b n' gc' hS ht =>
     tcStuckStep_preserves_stuckAgents p n gc a b n' gc' hS ht,
   fun fuel n gc n' gc' => tcLoop_preserves_stuckAgents p fuel n gc n' gc',
   fun n a b rest hS hpop => hS (a, b) (by
     rw [(vecPop_eq_some_iff _ _ _).mp hpop]
     exact List.mem_append_right _ (by simp))⟩

theorem stuck_pairs_are_agents_witness :
    StuckAgents
      ⟨[], ⟨0, []⟩, [(.agent 0 [], .agent 1 []), (.agent 2 [], .agent 3 [])], ⟨[]⟩⟩ :=
  (stuck_pairs_are_agents progC).2.1
    ⟨[], ⟨0, []⟩, [(.agent 0 [], .agent 1 [])], ⟨[]⟩⟩ (.agent 2 []) (.agent 3 [])
    ⟨[], ⟨0, []⟩, [(.agent 0 [], .agent 1 []), (.agent 2 [], .agent 3 [])], ⟨[]⟩⟩
    (by intro pr hpr
        obtain rfl := List.mem_singleton.mp hpr
        exact ⟨rfl, rfl⟩) rfl

theorem tcLoop_ok_empty (p : Program) :
    ∀ (fuel : Nat) (net : Net) (gc : List (Option Tree)) (net' : Net)
      (gc' : List (Option Tree)),
      tcLoop p fuel net gc = some (.ok (net', gc')) →
      net'.interactions = [] ∧ net'.stuck = [] := by
  intro fuel
  induction fuel with
  | zero => intro net gc net' gc' h; simp [tcLoop] at h
  | succ f ih =>
    intro net gc net' gc' h
    simp only [tcLoop] at h
    cases hp : vecPop net.interactions with
    | some pr =>
      obtain ⟨⟨a, b⟩, rest⟩ := pr
      simp only [hp] at h
      cases hi : Net.interact { net with interactions := rest } a b with
      | none => simp only [hi] at h; cases h
      | some n1 =>
        simp only [hi] at h
        exact ih n1 gc net' gc' h
    | none =>
      simp only [hp] at h
      cases hs : vecPop net.stuck with
      | none =>
        simp only [hs] at h
        have hinj := Option.some.inj h
        injection hinj with h2
        have hn : net = net' := congrArg Prod.fst h2
        rw [← hn]
        exact ⟨(vecPop_eq_none_iff _).mp hp, (vecPop_eq_none_iff _).mp hs⟩
      | some pr =>
        obtain ⟨⟨a, b⟩, rest⟩ := pr
        simp only [hs] at h
        cases ht : tcStuckStep p { net with stuck := rest } gc a b with
        | none => simp only [ht] at h; cases h
        | some r =>
          simp only [ht] at h
          cases r with
          | error e => simp at h
          | ok pr2 =>
            obtain ⟨n1, gc1⟩ := pr2
            exact ih n1 gc1 net' gc' h

/-- C2: with the pending queue empty, popping a stuck pair fails with an
error naming both agent kinds exactly when neither side is the
annotation-wrapper kind; when one side is the annotation wrapper
(payload, type-witness), the type-witness is discarded into the garbage
list and the loop proceeds exactly as if (payload, other side) had been
pushed as a new pending interaction; the loop ends in success only with
both pending and stuck empty, and the post-loop check reports a failure
with stuck pairs remaining as "Had stuck interactions". -/
theorem typecheck_loop_spec (p : Program) :
    (∀ (fuel : Nat) (net : Net) (gc : List (Option Tree)) rest
       (i1 : AgentId) (x1 : List Tree) (i2 : AgentId) (x2 : List Tree)
       (na nb : String),
      net.interactions = [] →
      net.stuck = rest ++ [(.agent i1 x1, .agent i2 x2)] →
      i1 ≠ p.ann_id → i2 ≠ p.ann_id →
      lookup_agent p.agent_scope i1 = some na →
      lookup_agent p.agent_scope i2 = some nb →
      tcLoop p (fuel + 1) net gc =
        some (.error
          ("When typechecking net\n:\tUndefined Interaction:\n\t\t" ++
            na ++ " ~ " ++ nb))) ∧
    (∀ (fuel : Nat) (net : Net) (gc : List (Option Tree)) rest
       (payload w other : Tree),
      net.interactions = [] →
      net.stuck = rest ++ [(other, .agent p.ann_id [payload, w])] →
      tcLoop p (fuel + 1) net gc =
        tcLoop p (fuel + 1)
          { net with stuck := rest, interactions := [(payload, other)] }
          (gc ++ [some w])) ∧
    (∀ (fuel : Nat) (net : Net) (gc : List (Option Tree)) rest
       (payload w : Tree) (i2 : AgentId) (x2 : List Tree),
      net.interactions = [] →
      net.stuck = rest ++ [(.agent p.ann_id [payload, w], .agent i2 x2)] →
      i2 ≠ p.ann_id →
      tcLoop p (fuel + 1) net gc =
        tcLoop p (fuel + 1)
          { net with stuck := rest, interactions := [(payload, .agent i2 x2)] }
          (gc ++ [some w])) ∧
    (∀ (fuel : Nat) (net : Net) (gc : List (Option Tree)) (net' : Net)
       (gc' : List (Option Tree)),
      tcLoop p fuel net gc = some (.ok (net', gc')) →
      net'.interactions = [] ∧ net'.stuck = []) ∧
    (∀ net : Net,
      (tcFinal net = .error "Had stuck interactions" ↔ net.stuck ≠ []) ∧
      (tcFinal net = .ok () ↔ net.stuck = [])) ∧
    (∀ (fuel : Nat) (net0 : Net),
      typecheck_net p fuel net0 = some (.ok ()) ↔
      ∃ net' gc', tcLoop p fuel
        { annotate_interactions p.annotator_id net0 with system := p.system } [] =
          some (.ok (net', gc'))) := by
  refine ⟨?_, ?_, ?_, tcLoop_ok_empty p, ?_, ?_⟩
  · intro fuel net gc rest i1 x1 i2 x2 na nb hempty hstuck h1ann h2ann hl1 hl2
    have hp : vecPop net.interactions = none := (vecPop_eq_none_iff _).mpr hempty
    have hs : vecPop net.stuck = some ((.agent i1 x1, .agent i2 x2), rest) := by
      rw [hstuck]
      exact vecPop_append_singleton _ _
    have hstep : tcStuckStep p { net with stuck := rest } gc
        (.agent i1 x1) (.agent i2 x2) =
        some (.error
          ("When typechecking net\n:\tUndefined Interaction:\n\t\t" ++
            na ++ " ~ " ++ nb)) := by
      simp [tcStuckStep, Tree.agent_id, h1ann, h2ann, hl1, hl2]
    simp only [tcLoop, hp, hs, hstep]
  · intro fuel net gc rest payload w other hempty hstuck
    have hp : vecPop net.interactions = none := (vecPop_eq_none_iff _).mpr hempty
    have hs : vecPop net.stuck = some ((other, .agent p.ann_id [payload, w]), rest) := by
      rw [hstuck]
      exact vecPop_append_singleton _ _
    have hstep : tcStuckStep p { net with stuck := rest } gc
        other (.agent p.ann_id [payload, w]) =
        (Net.interact { net with stuck := rest } payload other).map
          (fun n' => .ok (n', gc ++ [some w])) := by
      simp only [tcStuckStep, Tree.agent_id, if_pos rfl]
      simp [vecPop]
      cases hi : Net.interact { net with stuck := rest } payload other <;> simp [hi]
    have hrec : ({ net with stuck := rest, interactions := [] } : Net) =
        { net with stuck := rest } := by
      rw [show ({ net with stuck := rest } : Net) =
        { net with stuck := rest, interactions := net.interactions } from rfl, hempty]
    simp only [tcLoop, hp, hs, hstep]
    have hpr : vecPop ([(payload, other)] : List (Tree × Tree)) =
        some ((payload, other), []) := rfl
    simp only [hpr, hrec]
    cases hi : Net.interact { net with stuck := rest } payload other with
    | none => simp [hi]
    | some n1 => simp [hi]
  · intro fuel net gc rest payload w i2 x2 hempty hstuck h2ann
    have hp : vecPop net.interactions = none := (vecPop_eq_none_iff _).mpr hempty
    have hs : vecPop net.stuck =
        some ((.agent p.ann_id [payload, w], .agent i2 x2), rest) := by
      rw [hstuck]
      exact vecPop_append_singleton _ _
    have hstep : tcStuckStep p { net with stuck := rest } gc
        (.agent p.ann_id [payload, w]) (.agent i2 x2) =
        (Net.interact { net with stuck := rest } payload (.agent i2 x2)).map
          (fun n' => .ok (n', gc ++ [some w])) := by
      simp only [tcStuckStep, Tree.agent_id]
      rw [if_neg h2ann]
      simp [vecPop]
      cases hi : Net.interact { net with stuck := rest } payload (.agent i2 x2) <;>
        simp [hi]
    have hrec : ({ net with stuck := rest, interactions := [] } : Net) =
        { net with stuck := rest } := by
      rw [show ({ net with stuck := rest } : Net) =
        { net with stuck := rest, interactions := net.interactions } from rfl, hempty]
    simp only [tcLoop, hp, hs, hstep]
    have hpr : vecPop ([(payload, .agent i2 x2)] : List (Tree × Tree)) =
        some ((payload, .agent i2 x2), []) := rfl
    simp only [hpr, hrec]
    cases hi : Net.interact { net with stuck := rest } payload (.agent i2 x2) with
    | none => simp [hi]
    | some n1 => simp [hi]
  · intro net
    by_cases h : net.stuck = [] <;> simp [tcFinal, h]
  · intro fuel net0
    cases hl : tcLoop p fuel
        { annotate_interactions p.annotator_id net0 with system := p.system } [] with
    | none =>
      simp [typecheck_net, hl]
    | some r =>
      cases r with
      | error e => simp [typecheck_net, hl]
      | ok pr =>
        obtain ⟨net', gc'⟩ := pr
        have hemp := tcLoop_ok_empty p fuel _ [] net' gc' hl
        simp [typecheck_net, hl, tcFinal, hemp.2]

theorem typecheck_loop_spec_witness :
    tcLoop progC 1 ⟨[], ⟨0, []⟩, [(.agent 0 [], .agent 1 [])], ⟨[]⟩⟩ [] =
      some (.error
        ("When typechecking net\n:\tUndefined Interaction:\n\t\t" ++
          "Z" ++ " ~ " ++ "S")) :=
  (typecheck_loop_spec progC).1 0
    ⟨[], ⟨0, []⟩, [(.agent 0 [], .agent 1 [])], ⟨[]⟩⟩ [] [] 0 [] 1 [] "Z" "S"
    rfl rfl (by decide) (by decide) rfl rfl

/-- C3 counterexample: two Definitions whose kind pairs are the same
unordered pair in opposite orders load without any fatal error, and the
resulting InteractionSystem simultaneously contains a rule keyed (0, 1) and
a rule keyed (1, 0) — refuting the claim that at most one rule per
UNORDERED pair can be stored. -/
theorem build_interaction_system_unordered_counterexample :
    build_interaction_system [defAB, defBA] =
      some ⟨[((0, 1), ⟨[], []⟩), ((1, 0), ⟨[], []⟩)]⟩ ∧
    (InteractionSystem.getRule ⟨[((0, 1), ⟨[], []⟩), ((1, 0), ⟨[], []⟩)]⟩ 0 1).isSome = true ∧
    (InteractionSystem.getRule ⟨[((0, 1), ⟨[], []⟩), ((1, 0), ⟨[], []⟩)]⟩ 1 0).isSome = true ∧
    (0 : AgentId) ≠ 1 := by
  refine ⟨by decide, by decide, by decide, by decide⟩

end TypedAgents
